import Mathlib

/-!
Verification development for the multi-agent task orchestrator.

Each section embeds one component of the source, keeping the source's
structure and names, and proves the specified properties about it:

* `Orchestrator.Tools`      — tools/tool.js (`executeToolCall`)
* `Orchestrator.Rest`       — orchestrator.js REST handlers (`PUT /tasks/:id/priority`)
* `Orchestrator.Evaluator`  — evaluator (`getJsonFromLlmResponse`, `AgentEvaluator.evaluateAgent`)
* `Orchestrator.Supervisor` — orchestrator.js (`processTask`)
* `Orchestrator.Mcp`        — engine/mcp.js (`ModelContextProtocol`)
* `Orchestrator.Runtime`    — engine/workflowEngine.js (`DynamicAgent.execute` tool loop)
* `Orchestrator.Engine`     — engine/workflowEngine.js (`executeWorkflow` scheduler)

Effectful collaborators (the LLM, the tool bodies, the vector store) are
modelled as explicit oracle parameters; everything else is translated
directly from the JavaScript source.
-/

namespace Orchestrator

/-! ## Minimal JSON-like values

JavaScript values flowing through `executeToolCall` and the agent reports are
modelled by a small JSON-like type. -/

inductive JVal where
  | str (s : String)
  | num (q : ℚ)
  | bool (b : Bool)
  | null
  | obj (fields : List (String × JVal))
  | arr (elems : List JVal)

namespace Tools

/-! ## tools/tool.js

The three registered tools (`webSearch`, `documentRetrieval`, `summarization`)
perform network and LLM calls, so each tool's `execute` body is an oracle
parameter (`runs`); the registry metadata (names and `parametersSchema.required`
lists) and the whole dispatch logic of `executeToolCall` are embedded from the
source. -/

/-- Outcome of invoking a tool's `execute`: a returned value or a thrown
exception carrying a message. -/
inductive ToolOutcome where
  | ret (v : JVal)
  | thrown (msg : String)

/-- One registered tool: its name, its `parametersSchema.required` list, and
its (oracle-provided) `execute`. -/
structure MTool where
  name : String
  requiredParams : List String
  run : List (String × JVal) → ToolOutcome

/-- Per-tool `parametersSchema.required` lists of `availableTools` in
tools/tool.js; `none` for names not in the registry. -/
def toolRequired : String → Option (List String)
  | "webSearch" => some ["query"]
  | "documentRetrieval" => some ["query"]
  | "summarization" => some ["text"]
  | _ => none

/-- Embedding of `getToolByName`: look the name up in `availableTools`,
attaching the oracle behaviour for its `execute`. -/
def getToolByName (runs : String → List (String × JVal) → ToolOutcome)
    (name : String) : Option MTool :=
  (toolRequired name).map (fun req => ⟨name, req, runs name⟩)

/-- Result object built by the `catch` block of `executeToolCall`. -/
def catchObj (toolName msg : String) : JVal :=
  .obj [("error", .str ("Execution failed for tool \"" ++ toolName ++ "\".")),
        ("details", .str msg),
        ("status", .str ("error"))]

/-- Result object returned by `executeToolCall` for an unregistered tool. -/
def notFoundObj (toolName : String) : JVal :=
  .obj [("error", .str ("Tool \"" ++ toolName ++ "\" not found.")),
        ("status", .str ("error"))]

/-- Message of the exception thrown for a missing required parameter. -/
def missingParamMsg (requiredParam toolName : String) : String :=
  "Missing required parameter \"" ++ requiredParam ++ "\" for tool \"" ++
    toolName ++ "\"."

/-- Embedding of `executeToolCall` from tools/tool.js: unregistered names give
an error object; a missing required parameter throws inside the `try` and is
caught; the tool's `execute` is then run, a thrown exception is caught, a bare
string result is wrapped as `{result}`, and any other value is returned
as-is. -/
def executeToolCall (runs : String → List (String × JVal) → ToolOutcome)
    (toolName : String) (params : List (String × JVal)) : JVal :=
  match getToolByName runs toolName with
  | none => notFoundObj toolName
  | some tool =>
    match tool.requiredParams.find? (fun r => (params.lookup r).isNone) with
    | some r => catchObj toolName (missingParamMsg r toolName)
    | none =>
      match tool.run params with
      | .thrown msg => catchObj toolName msg
      | .ret (.str s) => .obj [("result", .str s)]
      | .ret v => v

end Tools

namespace Rest

/-! ## orchestrator.js — `PUT /tasks/:taskId/priority`

The handler validates the body's `priority` against `validPriorities`, finds
the task by id, mutates its `priority` field and returns it. -/

/-- The `Task` records held in the in-memory `tasks` array (the fields the
priority route touches). -/
structure Task where
  taskId : String
  description : String
  status : String
  priority : String
deriving DecidableEq, Repr

/-- The `validPriorities` array of the `PUT /tasks/:taskId/priority` handler
in orchestrator.js. -/
def validPriorities : List String := ["low", "medium", "high", "critical"]

/-- HTTP response of the priority route. -/
inductive PriorityResp where
  | badRequest (error : String)
  | notFound (error : String)
  | okJson (t : Task)
deriving DecidableEq, Repr

/-- Mutating `task.priority` on the object found by `tasks.find` updates the
first entry with that id. -/
def setPriorityFirst (tasks : List Task) (taskId priority : String) : List Task :=
  match tasks with
  | [] => []
  | t :: ts =>
    if t.taskId = taskId then { t with priority := priority } :: ts
    else t :: setPriorityFirst ts taskId priority

/-- Embedding of the `PUT /tasks/:taskId/priority` handler: 400 when the body
priority is not in `validPriorities`, 404 when no task has the id, otherwise
the task's priority is updated in place and the task is returned. -/
def putTaskPriority (tasks : List Task) (taskId priority : String) :
    PriorityResp × List Task :=
  if ¬ validPriorities.contains priority then
    (.badRequest ("Invalid priority value"), tasks)
  else
    match tasks.find? (fun t => t.taskId = taskId) with
    | none => (.notFound ("Task not found"), tasks)
    | some t =>
      (.okJson { t with priority := priority },
       setPriorityFirst tasks taskId priority)

/-- Sample task list used in the C9 counterexample. -/
def sampleTasks : List Task :=
  [{ taskId := "t1", description := "demo", status := "pending",
     priority := "medium" }]

end Rest

namespace Evaluator

/-! ## evaluator — `getJsonFromLlmResponse`

The retry loop around the evaluation LLM.  Each attempt either yields parsed
JSON or throws; a thrown error carries an optional HTTP status and an
optional provider-suggested retry delay (the parsed
`RetryInfo.retryDelay`, in seconds, when present and parseable). -/

/-- An error thrown while calling the evaluation LLM or parsing its reply. -/
structure LlmError where
  status : Option Nat
  suggestedDelaySec : Option Nat
  msg : String
deriving DecidableEq, Repr

/-- Outcome of one attempt inside `getJsonFromLlmResponse`: parsed JSON or a
thrown error. -/
inductive AttemptOutcome (V : Type) where
  | ok (json : V)
  | err (e : LlmError)
deriving DecidableEq, Repr

/-- The `maxRetries` constant of `getJsonFromLlmResponse`. -/
def maxRetries : Nat := 5

/-- The `initialBackoffMs` constant of `getJsonFromLlmResponse`. -/
def initialBackoffMs : Nat := 1000

/-- The wait before the next attempt: the provider-suggested delay when
present (seconds, times 1000), else `initialBackoffMs * 2 ^ attempt`. -/
def retryAfterMs (attempt : Nat) (e : LlmError) : Nat :=
  match e.suggestedDelaySec with
  | some d => d * 1000
  | none => initialBackoffMs * 2 ^ attempt

/-- Result record of `getJsonFromLlmResponse`: parsed JSON, the
`LLM_JSON_PARSING_OR_API_ERROR` record built in the catch's else branch
(recording how many attempts were used and the final error), or the
`LLM_MAX_RETRIES_REACHED` record returned after the `for` loop. -/
inductive GetJsonResult (V : Type) where
  | parsed (v : V)
  | apiError (attemptsUsed : Nat) (e : LlmError)
  | maxRetriesReached
deriving DecidableEq, Repr

/-- The `for (let attempt = 0; attempt < maxRetries; attempt++)` loop of
`getJsonFromLlmResponse`.  `σ` is the oracle giving each attempt's outcome;
the returned list records the waits performed between attempts. -/
def getJsonGo (σ : Nat → AttemptOutcome V) (attempt : Nat) (delays : List Nat) :
    GetJsonResult V × List Nat :=
  if _h : attempt < maxRetries then
    match σ attempt with
    | .ok v => (.parsed v, delays)
    | .err e =>
      if e.status = some 429 ∧ attempt < maxRetries - 1 then
        getJsonGo σ (attempt + 1) (delays ++ [retryAfterMs attempt e])
      else
        (.apiError (attempt + 1) e, delays)
  else
    (.maxRetriesReached, delays)
termination_by maxRetries - attempt

/-- Embedding of `getJsonFromLlmResponse`: run the attempt loop from
attempt 0. -/
def getJsonFromLlmResponse (σ : Nat → AttemptOutcome V) : GetJsonResult V × List Nat :=
  getJsonGo σ 0 []

/-- An LLM that answers every attempt with a plain HTTP 429 rate-limit
error (no suggested retry delay). -/
def allRateLimited : Nat → AttemptOutcome Unit :=
  fun _ => .err { status := some 429, suggestedDelaySec := none, msg := "429" }

/-! ## evaluator — `AgentEvaluator.evaluateAgent`

The deterministic skeleton of `evaluateAgent`: the error path, the
evaluation-LLM-error path, the efficiency rating computed from
`executionTimeMs`, and the overall score.  The metrics LLM reply is an
oracle input. -/

/-- A JavaScript value in a rating position: a number, or anything else
(filtered out of `validRatings` by `typeof r === 'number'`). -/
inductive JNum where
  | num (q : ℚ)
  | nonnum
deriving DecidableEq, Repr

/-- One `{rating, reason}` object (the reason text is irrelevant to the
claims and omitted). -/
structure MetricEval where
  rating : JNum
deriving DecidableEq, Repr

/-- The parsed metrics JSON from the LLM; `none` fields model missing/falsy
fields, defaulted by `metricsEval.accuracy || {rating: 3, ...}`. -/
structure MetricsResponse where
  accuracy : Option MetricEval
  completeness : Option MetricEval
  coherence : Option MetricEval
deriving DecidableEq, Repr

/-- The evaluation record produced by `evaluateAgent` (fields the claims
mention). -/
structure AgentEvaluation where
  status : String
  accuracy : MetricEval
  completeness : MetricEval
  coherence : MetricEval
  efficiency : MetricEval
  overall : ℚ
deriving DecidableEq, Repr

/-- JavaScript's `parseFloat(x.toFixed(1))`: round to one decimal place,
ties away from zero for the nonnegative scores that occur here. -/
def toFixed1 (q : ℚ) : ℚ := (round (10 * q) : ℤ) / 10

/-- The deterministic efficiency rating: the `{rating: 5}` default, overridden
when `executionTimeMs` is a number by the `<1000 → 9`, `<5000 → 7`, else `4`
ladder. -/
def efficiencyRating (executionTimeMs : JNum) : MetricEval :=
  match executionTimeMs with
  | .nonnum => { rating := .num 5 }
  | .num t =>
    if t < 1000 then { rating := .num 9 }
    else if t < 5000 then { rating := .num 7 }
    else { rating := .num 4 }

/-- Extract the numeric ratings (`validRatings`). -/
def validRatings (ratings : List JNum) : List ℚ :=
  ratings.filterMap (fun r => match r with | .num q => some q | .nonnum => none)

/-- Embedding of `AgentEvaluator.evaluateAgent`.  `statusIsError` is
`status === 'error'`, `resultHasError` is `result && result.error`;
`metrics` is `none` when `getJsonFromLlmResponse` returned an error record
(the `evaluation_llm_error` path). -/
def evaluateAgent (statusIsError resultHasError : Bool)
    (executionTimeMs : JNum) (metrics : Option MetricsResponse) : AgentEvaluation :=
  if statusIsError || resultHasError then
    { status := "error",
      accuracy := { rating := .num 1 }, completeness := { rating := .num 1 },
      coherence := { rating := .num 1 }, efficiency := { rating := .num 1 },
      overall := 1 }
  else
    match metrics with
    | none =>
      { status := "evaluation_llm_error",
        accuracy := { rating := .num 1 }, completeness := { rating := .num 1 },
        coherence := { rating := .num 1 }, efficiency := { rating := .num 1 },
        overall := 1 }
    | some m =>
      let accuracyEval := m.accuracy.getD { rating := .num 3 }
      let completenessEval := m.completeness.getD { rating := .num 3 }
      let coherenceEval := m.coherence.getD { rating := .num 3 }
      let efficiencyEval := efficiencyRating executionTimeMs
      let ratings := [accuracyEval.rating, completenessEval.rating,
                      coherenceEval.rating, efficiencyEval.rating]
      let valid := validRatings ratings
      let overallScore := if valid.length > 0 then valid.sum / valid.length else 0
      { status := "evaluated",
        accuracy := accuracyEval, completeness := completenessEval,
        coherence := coherenceEval, efficiency := efficiencyEval,
        overall := toFixed1 overallScore }

end Evaluator

namespace Supervisor

/-! ## orchestrator.js — `processTask`

The supervisor sequences decomposition, agent generation and workflow
execution inside one `try`.  The two LLM/IO phases are oracle parameters
(`Except` results); `generateAgentsFromDecomposition` is embedded from the
source.  Broadcasts of the task list are recorded as a trace of the task's
status at each `broadcastTaskUpdate()` call. -/

/-- A subtask of the decomposition. -/
structure Subtask where
  subtaskId : String
  subtaskName : String
  dependencies : List String
  parallelGroup : Option String
deriving DecidableEq, Repr

/-- The decomposition result; `subtasks = none` models a missing or
non-array `subtasks` field. -/
structure Decomposition where
  taskId : String
  subtasks : Option (List Subtask)
deriving DecidableEq, Repr

/-- One generated agent config (output of
`generateAgentsFromDecomposition`). -/
structure AgentSeed where
  agentId : String
  agentName : String
  taskAssigned : String
  status : String
  dependencies : List String
  parallelGroup : Option String
deriving DecidableEq, Repr

/-- The `{mainTask, agents}` object written to agents.json. -/
structure AgentsResult where
  mainTask : String
  agents : List AgentSeed
deriving DecidableEq, Repr

/-- Embedding of `generateAgentsFromDecomposition`: throws when `subtasks`
is missing or not an array, else maps each subtask to an agent config. -/
def generateAgentsFromDecomposition (d : Decomposition) : Except String AgentsResult :=
  match d.subtasks with
  | none => .error ("Invalid decomposition format: 'subtasks' missing.")
  | some subs =>
    .ok { mainTask := d.taskId,
          agents := subs.map (fun s =>
            { agentId := s.subtaskId,
              agentName := "Agent for " ++ s.subtaskName,
              taskAssigned := s.subtaskName,
              status := "pending",
              dependencies := s.dependencies,
              parallelGroup := s.parallelGroup }) }

/-- The workflow output read back from output.json, as far as the
supervisor's terminal status could depend on it. -/
structure WorkflowResult where
  wfStatus : String
  anyAgentErrored : Bool
deriving DecidableEq, Repr

/-- The task's `result` field: the parsed workflow output on success or the
`{error}` record set in the catch block. -/
inductive TaskResult where
  | wf (w : WorkflowResult)
  | errRecord (msg : String)
deriving DecidableEq, Repr

/-- The supervisor's `Task` (fields `processTask` touches). -/
structure STask where
  taskId : String
  description : String
  status : String
  agentCount : Nat
  result : Option TaskResult
deriving DecidableEq, Repr

/-- One `broadcastTaskUpdate()` call, recording the task's status at that
moment. -/
structure TaskBroadcast where
  status : String
deriving DecidableEq, Repr

/-- Embedding of `processTask`.  `decompose` is the `decomposeTask` phase
(with file save), `runWorkflow` the `executeWorkflow` + output-file read
phase; an `Except.error` in either, or a generation error, lands in the
catch block. -/
def processTask (t : STask) (decompose : Except String Decomposition)
    (runWorkflow : Except String WorkflowResult) : STask × List TaskBroadcast :=
  let t1 : STask := { t with status := "in-progress" }
  let evs1 : List TaskBroadcast := [{ status := "in-progress" }]
  let fail := fun (t' : STask) (evs : List TaskBroadcast) (msg : String) =>
    let tErr : STask := { t' with status := "error", result := some (.errRecord msg) }
    (tErr, evs ++ [{ status := "error" }])
  match decompose with
  | .error e => fail t1 evs1 e
  | .ok d =>
    match generateAgentsFromDecomposition d with
    | .error e => fail t1 evs1 e
    | .ok ar =>
      let t2 : STask := { t1 with agentCount := ar.agents.length }
      let evs2 := evs1 ++ [{ status := "in-progress" }]
      match runWorkflow with
      | .error e => fail t2 evs2 e
      | .ok wr =>
        let t3 : STask := { t2 with result := some (.wf wr), status := "completed" }
        (t3, evs2 ++ [{ status := "completed" }])

/-- Sample task for the C7 counterexample. -/
def sampleTask : STask :=
  { taskId := "t1", description := "demo", status := "pending",
    agentCount := 0, result := none }

/-- A decomposition with one subtask, for the C7 counterexample. -/
def sampleDecomposition : Decomposition :=
  { taskId := "t1",
    subtasks := some [{ subtaskId := "s1", subtaskName := "only step",
                        dependencies := [], parallelGroup := some ("A") }] }

end Supervisor

namespace Mcp

/-! ## engine/mcp.js — `ModelContextProtocol` context management

`addToContext` appends (or, for the constructor's system instruction,
prepends) a message and then runs `manageContextWindow`, which evicts the
oldest non-system message while the estimated token count or the message
count exceeds its bound and more than one message remains. -/

/-- One context-window message. -/
structure Msg where
  role : String
  content : String
deriving DecidableEq, Repr

/-- Estimated tokens of one message: `Math.ceil(content.length / 4)`. -/
def estTokens (m : Msg) : Nat := (m.content.length + 3) / 4

/-- The `reduce` computing the estimated token count of the window. -/
def totalTokens (w : List Msg) : Nat := (w.map estTokens).sum

/-- The `MAX_MESSAGES_HISTORY` constant of `manageContextWindow`. -/
def maxMessagesHistory : Nat := 30

/-- The `findIndex`/`splice` pair of the eviction loop: remove the first
message whose role is not `system`, returning it and the remaining window;
`none` when every message is a system message. -/
def removeFirstNonSystem : List Msg → Option (Msg × List Msg)
  | [] => none
  | m :: ms =>
    if m.role ≠ "system" then some (m, ms)
    else (removeFirstNonSystem ms).map (fun p => (p.1, m :: p.2))

/-- The `while` loop of `manageContextWindow`: `t` is the incrementally
maintained `estimatedTokenCount`. -/
def manageGo (maxTok : Nat) (w : List Msg) (t : Nat) : List Msg :=
  if (t > maxTok ∨ w.length > maxMessagesHistory) ∧ w.length > 1 then
    match hrem : removeFirstNonSystem w with
    | some p => manageGo maxTok p.2 (t - estTokens p.1)
    | none => w
  else w
termination_by w.length
decreasing_by
  have hlen : ∀ (l : List Msg) (p : Msg × List Msg),
      removeFirstNonSystem l = some p → p.2.length + 1 = l.length := by
    intro l
    induction l with
    | nil => intro p h; simp [removeFirstNonSystem] at h
    | cons x xs ih =>
      intro p h
      by_cases hx : x.role ≠ "system"
      · simp [removeFirstNonSystem, hx] at h
        simp [← h]
      · simp [removeFirstNonSystem, hx] at h
        obtain ⟨q, l, hrec, hq⟩ := h
        have := ih (q, l) hrec
        simp at this
        simp [← hq, ← this]
  have := hlen w _ hrem
  omega

/-- Embedding of `manageContextWindow`. -/
def manageContextWindow (maxTok : Nat) (w : List Msg) : List Msg :=
  manageGo maxTok w (totalTokens w)

/-- Embedding of `addToContext`: prepend for a system instruction, append
otherwise, then manage the window.  `maxTok` is `this.maxContextTokens`
(`agentConfig.maxContextTokens || 8000`). -/
def addToContext (maxTok : Nat) (w : List Msg) (role content : String)
    (isSystemInstruction : Bool) : List Msg :=
  let w' := if isSystemInstruction then ⟨role, content⟩ :: w else w ++ [⟨role, content⟩]
  manageContextWindow maxTok w'

end Mcp

namespace Runtime

/-! ## engine/workflowEngine.js — `DynamicAgent.execute` tool loop

The LLM is an oracle stream `σ`: `σ k` is the outcome of the `k`-th
`mcp.generateResponse` call of this agent. -/

/-- One `generateResponse` outcome: a `{toolCalls}` object (the list of
requested tool names, nonempty when returned by the MCP) or a final
answer. -/
inductive LlmTurn (V : Type) where
  | toolCalls (calls : List String)
  | answer (v : V)
deriving DecidableEq, Repr

/-- The `maxToolCallLoops` constant of `DynamicAgent.execute`. -/
def maxToolCallLoops : Nat := 5

/-- Truthiness of `llmResponse.toolCalls`. -/
def hasToolCalls : LlmTurn V → Bool
  | .toolCalls _ => true
  | .answer _ => false

/-- The `while (llmResponse && llmResponse.toolCalls && loopCount <
maxToolCallLoops)` loop: returns the loop counter, the response that ended
the loop, and the index of the next unissued LLM call. -/
def toolLoopGo (σ : Nat → LlmTurn V) (resp : LlmTurn V) (k loopCount : Nat) :
    Nat × LlmTurn V × Nat :=
  match resp with
  | .answer v => (loopCount, .answer v, k)
  | .toolCalls cs =>
    if loopCount < maxToolCallLoops then
      toolLoopGo σ (σ k) (k + 1) (loopCount + 1)
    else
      (loopCount, .toolCalls cs, k)
termination_by maxToolCallLoops - loopCount

/-- Summary of the tool phase of one `DynamicAgent.execute` run. -/
structure ToolPhase (V : Type) where
  loopCount : Nat
  llmCalls : Nat
  forcedFinal : Bool
  finalResponse : LlmTurn V
deriving DecidableEq, Repr

/-- Embedding of the tool phase: the initial `generateResponse`, the tool
loop, and the max-loop fallback that injects the no-more-tools system message
and requests one final response. -/
def runToolPhase (σ : Nat → LlmTurn V) : ToolPhase V :=
  let r0 := σ 0
  let res := toolLoopGo σ r0 1 0
  let loopCount := res.1
  let afterLoop := res.2.1
  let k := res.2.2
  if hasToolCalls afterLoop ∧ loopCount ≥ maxToolCallLoops then
    { loopCount := loopCount, llmCalls := k + 1, forcedFinal := true,
      finalResponse := σ k }
  else
    { loopCount := loopCount, llmCalls := k, forcedFinal := false,
      finalResponse := afterLoop }

/-- An LLM that asks for a tool call on every turn. -/
def allToolCalls : Nat → LlmTurn Unit :=
  fun _ => .toolCalls ["webSearch"]

end Runtime

namespace Engine

/-! ## engine/workflowEngine.js — `executeWorkflow`

The scheduler.  Agent behaviour (the whole of `DynamicAgent.execute`, which
always resolves to a report whose status is `completed` or `error`) is an
oracle `String → Outcome V` from agent id to success flag and result value.
The engine state carries the mutable pieces of the loop — the agents with
their statuses, `executionResults`, `completedAgentIds` — plus the ordered
trace of `updateCallback` events. -/

/-- Agent statuses assigned by the engine. -/
inductive AStatus where
  | pending
  | completed
  | error
  | blockedError
  | stalled
deriving DecidableEq, Repr

/-- One agent config from the parsed agents.json (the fields the scheduler
reads). -/
structure AgentCfg where
  agentId : String
  dependencies : List String
  parallelGroup : Option String
deriving DecidableEq, Repr

/-- Oracle outcome of running one agent: did `execute` end `completed` (vs
`error`), and with which `result` value. -/
structure Outcome (V : Type) where
  success : Bool
  result : V

/-- The agent report stored into `executionResults` (fields the scheduler
and final output read). -/
structure Report (V : Type) where
  agentId : String
  status : AStatus
  result : V
deriving DecidableEq, Repr

/-- One `updateCallback` invocation. -/
inductive Event (V : Type) where
  | pendingEv (agentId : String)
  | readyToExecute (agentId : String)
  | dispatched (agentId : String) (context : List (String × Option V))
  | reportEv (r : Report V)
  | blockedEv (agentId : String)
  | stalledEv (agentId : String)
deriving DecidableEq, Repr

/-- The engine's loop state. -/
structure EngineState (V : Type) where
  agents : List (AgentCfg × AStatus)
  results : List (String × Report V)
  completed : List String
  events : List (Event V)
deriving DecidableEq, Repr

/-- The `Set.add` of `completedAgentIds`. -/
def setInsert (l : List String) (x : String) : List String :=
  if x ∈ l then l else x :: l

/-- The readiness predicate of the main loop's filter: status `pending` and
every dependency in `completedAgentIds`. -/
def isReady (s : EngineState V) (p : AgentCfg × AStatus) : Bool :=
  p.2 == AStatus.pending && p.1.dependencies.all (fun d => s.completed.contains d)

/-- `agentsReadyToExecute`. -/
def readyAgents (s : EngineState V) : List (AgentCfg × AStatus) :=
  s.agents.filter (isReady s)

/-- Running one agent: `DynamicAgent.execute` always resolves with a report
whose status is `completed` or `error`. -/
def execEntry (oracle : String → Outcome V) (a : AgentCfg) : Report V :=
  let o := oracle a.agentId
  { agentId := a.agentId,
    status := if o.success then .completed else .error,
    result := o.result }

/-- The `dependencyContext` built for an agent before dispatch:
`context[depId] = executionResults[depId]?.result`. -/
def buildContext (results : List (String × Report V)) (a : AgentCfg) :
    List (String × Option V) :=
  a.dependencies.map (fun d => (d, (results.lookup d).map Report.result))

/-- The group key: `agent.parallelGroup || "default_parallel_group"` (the
empty string is falsy). -/
def groupKey (a : AgentCfg) : String :=
  match a.parallelGroup with
  | some g => if g = "" then ("default_parallel_group") else g
  | none => "default_parallel_group"

/-- Append an agent to its group, preserving first-insertion key order (the
iteration order of the `executionGroups` object). -/
def insertGrouped (gs : List (String × List AgentCfg)) (k : String) (a : AgentCfg) :
    List (String × List AgentCfg) :=
  match gs with
  | [] => [(k, [a])]
  | (k', l) :: rest =>
    if k' = k then (k', l ++ [a]) :: rest else (k', l) :: insertGrouped rest k a

/-- Partition the ready agents into `executionGroups`. -/
def groupReady (ready : List (AgentCfg × AStatus)) : List (String × List AgentCfg) :=
  ready.foldl (fun gs p => insertGrouped gs (groupKey p.1) p.1) []

/-- Store the cohort's reports into `executionResults` (later writes shadow
earlier ones under lookup). -/
def pushReports (reports : List (Report V)) (results : List (String × Report V)) :
    List (String × Report V) :=
  reports.foldl (fun acc r => (r.agentId, r) :: acc) results

/-- The `result.status === "completed" || result.status === "error"` test
guarding `completedAgentIds.add`. -/
def isTerminalStatus (st : AStatus) : Bool :=
  st == AStatus.completed || st == AStatus.error

/-- Add the cohort's agents to `completedAgentIds` per the guard above. -/
def addCompleted (reports : List (Report V)) (completed : List String) : List String :=
  reports.foldl
    (fun acc r => if isTerminalStatus r.status then setInsert acc r.agentId else acc)
    completed

/-- Run one parallel group: contexts are built (and `ready_to_execute`
emitted) for the whole cohort from the state before the cohort runs, then
every agent executes and its report is recorded. -/
def runGroup (oracle : String → Outcome V) (s : EngineState V)
    (grp : List AgentCfg) : EngineState V :=
  let dispatchEvents := grp.flatMap (fun a =>
    [Event.readyToExecute a.agentId,
     Event.dispatched a.agentId (buildContext s.results a)])
  let reports := grp.map (execEntry oracle)
  { s with
    results := pushReports reports s.results,
    completed := addCompleted reports s.completed,
    events := s.events ++ dispatchEvents ++ reports.map Event.reportEv }

/-- Execute every ready agent, group by group, then update the statuses of
exactly the dispatched agent entries (readiness is judged against the
snapshot taken at the top of the iteration, as in the source). -/
def runReady (oracle : String → Outcome V) (s : EngineState V) : EngineState V :=
  let ready := readyAgents s
  let groups := groupReady ready
  let s' := groups.foldl (fun st g => runGroup oracle st g.2) s
  { s' with
    agents := s.agents.map (fun p =>
      if isReady s p then (p.1, (execEntry oracle p.1).status) else p) }

/-- The `pendingAgents` filter of the stall check: not completed and not in
status `error`. -/
def pendingAgentsOf (s : EngineState V) : List (AgentCfg × AStatus) :=
  s.agents.filter (fun p => !(s.completed.contains p.1.agentId) && p.2 != AStatus.error)

/-- Does some dependency's (first matching) agent have status `error`? -/
def hasErroredDep (agents : List (AgentCfg × AStatus)) (a : AgentCfg) : Bool :=
  a.dependencies.any (fun d =>
    match agents.find? (fun p => p.1.agentId == d) with
    | some p => p.2 == AStatus.error
    | none => false)

/-- The predicate selecting the agents that the cascade/stall branches mark:
a member of `pendingAgents` whose status is still `pending`. -/
def isMarkable (s : EngineState V) (p : AgentCfg × AStatus) : Bool :=
  p.2 == AStatus.pending && !(s.completed.contains p.1.agentId)

/-- The error-cascade branch: mark the still-pending non-completed agents
`blocked_error` and emit an event for each.  `completedAgentIds` and
`executionResults` are untouched. -/
def markBlocked (s : EngineState V) : EngineState V :=
  { s with
    agents := s.agents.map (fun p =>
      if isMarkable s p then (p.1, AStatus.blockedError) else p),
    events := s.events ++
      (s.agents.filter (isMarkable s)).map (fun p => Event.blockedEv p.1.agentId) }

/-- The stall branch: mark the still-pending non-completed agents `stalled`
and emit an event for each. -/
def markStalled (s : EngineState V) : EngineState V :=
  { s with
    agents := s.agents.map (fun p =>
      if isMarkable s p then (p.1, AStatus.stalled) else p),
    events := s.events ++
      (s.agents.filter (isMarkable s)).map (fun p => Event.stalledEv p.1.agentId) }

/-- One iteration of the `while (workflowInProgress)` loop.  `Sum.inl` is a
final state (the loop broke), `Sum.inr` continues. -/
def loopStep (oracle : String → Outcome V) (s : EngineState V) :
    EngineState V ⊕ EngineState V :=
  let ready := readyAgents s
  if ready.isEmpty && decide (s.completed.length < s.agents.length) then
    let pend := pendingAgentsOf s
    if pend.all (fun p => hasErroredDep s.agents p.1) then
      .inl (markBlocked s)
    else if !pend.isEmpty then
      .inl (markStalled s)
    else
      -- fallthrough of the else-if chain (provably unreachable): the loop
      -- continues with no ready agents, so the iteration is a no-op.
      .inr (runReady oracle s)
  else if ready.isEmpty && decide (s.completed.length = s.agents.length) then
    .inl s
  else
    let s' := runReady oracle s
    if s'.completed.length = s'.agents.length then .inl s' else .inr s'

/-- The engine loop, driven by explicit fuel; `none` means the fuel ran out
(never happens from `initState`, see the termination theorem). -/
def loop (oracle : String → Outcome V) : Nat → EngineState V → Option (EngineState V)
  | 0, _ => none
  | fuel + 1, s =>
    match loopStep oracle s with
    | .inl sf => some sf
    | .inr s' => loop oracle fuel s'

/-- Initial state: every agent `pending` (and one initial `pending` event per
agent). -/
def initState (V : Type) (cfgs : List AgentCfg) : EngineState V :=
  { agents := cfgs.map (fun a => (a, AStatus.pending)),
    results := [],
    completed := [],
    events := cfgs.map (fun a => Event.pendingEv a.agentId) }

/-- The final `status` field of the workflow output. -/
inductive WStatus where
  | completedSuccessfully
  | completedWithErrors
deriving DecidableEq, Repr

/-- The keys of a JavaScript object modelled as an assoc list with
most-recent entry first. -/
def objKeys (l : List (String × β)) : List String := (l.map Prod.fst).dedup

/-- `Object.values` of such an object: the latest value per key. -/
def objValues (l : List (String × β)) : List β :=
  (objKeys l).filterMap (fun k => l.lookup k)

/-- The `Object.values(executionResults).some(r => r.status === 'error')`
test deciding the final status. -/
def overallStatus (results : List (String × Report V)) : WStatus :=
  if (objValues results).any (fun r => r.status == AStatus.error) then
    .completedWithErrors
  else .completedSuccessfully

/-- The `finalOutput` object (fields the claims mention). -/
structure FinalOutput (V : Type) where
  status : WStatus
  agentExecutionReports : List (String × Report V)
deriving DecidableEq, Repr

/-- Embedding of `executeWorkflow` on an already-parsed agents.json: run the
loop with enough fuel and package the final output.  The full final state is
returned alongside for the statements about statuses and events. -/
def executeWorkflow (oracle : String → Outcome V) (cfgs : List AgentCfg) :
    Option (FinalOutput V × EngineState V) :=
  (loop oracle (cfgs.length + 1) (initState V cfgs)).map
    (fun sf => ({ status := overallStatus sf.results,
                  agentExecutionReports := sf.results }, sf))

/-- Number of `pending` entries (the loop's termination measure). -/
def countPending (s : EngineState V) : Nat :=
  (s.agents.filter (fun p => p.2 == AStatus.pending)).length

/-- The engine-state invariant maintained by the loop. -/
def Inv (s : EngineState V) : Prop :=
  s.completed.Nodup ∧
  (∀ id ∈ s.completed,
    ∃ p ∈ s.agents, p.1.agentId = id ∧ (p.2 = AStatus.completed ∨ p.2 = AStatus.error)) ∧
  (∀ p ∈ s.agents,
    (p.2 = AStatus.completed ∨ p.2 = AStatus.error) → p.1.agentId ∈ s.completed) ∧
  (∀ id : String, (s.results.lookup id).isSome ↔ id ∈ s.completed) ∧
  (∀ pr ∈ s.results, isTerminalStatus pr.2.status ∧ pr.2.agentId = pr.1)

/-- The dispatch-trace invariant: every `dispatched` event carries a context
whose keys are exactly the agent's dependency list and whose values are the
results of recorded (terminal) reports for those dependencies. -/
def DispatchOk (s : EngineState V) : Prop :=
  ∀ id ctx, Event.dispatched id ctx ∈ s.events →
    ∃ a : AgentCfg, (∃ st, (a, st) ∈ s.agents) ∧ a.agentId = id ∧
      ctx.map Prod.fst = a.dependencies ∧
      ∀ pr ∈ ctx, ∃ rep : Report V,
        (pr.1, rep) ∈ s.results ∧ pr.2 = some rep.result ∧
        (rep.status = AStatus.completed ∨ rep.status = AStatus.error)

/-- The invariant carried through the groups of one loop iteration, relative
to the snapshot `s0` taken at the top of the iteration (agent statuses are
only written back after all groups ran, mirroring how readiness is judged
against the iteration snapshot). -/
def MidInv (s0 s : EngineState V) : Prop :=
  s.agents = s0.agents ∧
  s.completed.Nodup ∧
  (∀ k : String, (s.results.lookup k).isSome ↔ k ∈ s.completed) ∧
  (∀ pr ∈ s.results, isTerminalStatus pr.2.status = true ∧ pr.2.agentId = pr.1) ∧
  DispatchOk s ∧
  s0.completed ⊆ s.completed ∧
  (∀ id ∈ s.completed, id ∈ s0.completed ∨
    ∃ p ∈ s0.agents, isReady s0 p = true ∧ p.1.agentId = id)

/-- A single agent whose dependency id does not exist: the C1
counterexample input. -/
def ghostCfgs : List AgentCfg :=
  [{ agentId := "s1", dependencies := ["ghost"], parallelGroup := some ("A") }]

/-- The linear chain s1 → s2 → s3 of the spec's error-cascade scenario. -/
def chainCfgs : List AgentCfg :=
  [{ agentId := "s1", dependencies := [], parallelGroup := some ("A") },
   { agentId := "s2", dependencies := ["s1"], parallelGroup := some ("B") },
   { agentId := "s3", dependencies := ["s2"], parallelGroup := some ("C") }]

/-- The oracle where s2 fails and every other agent succeeds. -/
def chainOracle : String → Outcome String :=
  fun id =>
    if id = "s2" then { success := false, result := "E2" }
    else { success := true, result := "R-" ++ id }

/-- An always-succeeding oracle with the agent id as result. -/
def okOracle : String → Outcome String :=
  fun id => { success := true, result := "R-" ++ id }

/-- Final report status of one agent id, for concrete runs. -/
def reportStatusOf (out : Option (FinalOutput V × EngineState V)) (id : String) :
    Option AStatus :=
  out.bind (fun pr => (pr.1.agentExecutionReports.lookup id).map Report.status)

/-- The reports of the chain run (s2 failing), newest first. -/
def chainReports : List (String × Report String) :=
  [("s3", { agentId := "s3", status := AStatus.completed, result := "R-s3" }),
   ("s2", { agentId := "s2", status := AStatus.error, result := "E2" }),
   ("s1", { agentId := "s1", status := AStatus.completed, result := "R-s1" })]

/-- The final output of the chain run. -/
def chainFinalOut : FinalOutput String :=
  { status := WStatus.completedWithErrors, agentExecutionReports := chainReports }

/-- The final engine state of the chain run. -/
def chainFinalState : EngineState String :=
  { agents :=
      [({ agentId := "s1", dependencies := [], parallelGroup := some ("A") },
        AStatus.completed),
       ({ agentId := "s2", dependencies := ["s1"], parallelGroup := some ("B") },
        AStatus.error),
       ({ agentId := "s3", dependencies := ["s2"], parallelGroup := some ("C") },
        AStatus.completed)],
    results := chainReports,
    completed := ["s3", "s2", "s1"],
    events :=
      [Event.pendingEv ("s1"), Event.pendingEv ("s2"), Event.pendingEv ("s3"),
       Event.readyToExecute ("s1"), Event.dispatched ("s1") [],
       Event.reportEv { agentId := "s1", status := AStatus.completed, result := "R-s1" },
       Event.readyToExecute ("s2"), Event.dispatched ("s2") [("s1", some ("R-s1"))],
       Event.reportEv { agentId := "s2", status := AStatus.error, result := "E2" },
       Event.readyToExecute ("s3"), Event.dispatched ("s3") [("s2", some ("E2"))],
       Event.reportEv { agentId := "s3", status := AStatus.completed, result := "R-s3" }] }

/-- A mid-run state in which agent sE has errored and agent sB waits on both
sE and a nonexistent dependency: the error-cascade branch fires here. -/
def blockedStateEx : EngineState Unit :=
  { agents :=
      [({ agentId := "sE", dependencies := [], parallelGroup := none }, AStatus.error),
       ({ agentId := "sB", dependencies := ["sE", "ghost"], parallelGroup := none },
        AStatus.pending)],
    results := [("sE", { agentId := "sE", status := AStatus.error, result := () })],
    completed := ["sE"],
    events := [] }

end Engine

/-! # Theorems -/

namespace Tools

/-- C10: for every tool name and parameter object, `executeToolCall` returns a
value and never throws: an unregistered tool name yields the object with
`error` and `status: "error"` fields; a missing required schema parameter or
an exception thrown by the tool's `execute` yields the catch-block object with
`error`, `details` and `status` fields; and a bare string returned by the
tool's `execute` is wrapped as an object whose `result` field is that
string. -/
theorem executeToolCall_spec (runs : String → List (String × JVal) → ToolOutcome)
    (name : String) (params : List (String × JVal)) :
    (toolRequired name = none → executeToolCall runs name params = notFoundObj name) ∧
    (∀ req, toolRequired name = some req →
      (∀ r, req.find? (fun q => (params.lookup q).isNone) = some r →
        executeToolCall runs name params = catchObj name (missingParamMsg r name)) ∧
      (req.find? (fun q => (params.lookup q).isNone) = none →
        (∀ m, runs name params = .thrown m →
          executeToolCall runs name params = catchObj name m) ∧
        (∀ s, runs name params = .ret (.str s) →
          executeToolCall runs name params = .obj [("result", .str s)]))) := by
  refine ⟨fun h => ?_, fun req hreq => ⟨fun r hr => ?_, fun hnone => ⟨fun m hm => ?_, fun s hs => ?_⟩⟩⟩
  · simp [executeToolCall, getToolByName, h]
  · simp [executeToolCall, getToolByName, hreq, hr]
  · simp [executeToolCall, getToolByName, hreq, hnone, hm]
  · simp [executeToolCall, getToolByName, hreq, hnone, hs]

/-- Witness for C10: a concrete registered tool whose execute returns a bare
string gets it wrapped in a `{result}` object. -/
theorem executeToolCall_spec_witness :
    executeToolCall (fun _ _ => ToolOutcome.ret (JVal.str ("ok"))) ("summarization")
      [("text", JVal.str ("hi"))] = JVal.obj [("result", JVal.str ("ok"))] := by
  have h := executeToolCall_spec (fun _ _ => ToolOutcome.ret (JVal.str ("ok")))
      ("summarization") [("text", JVal.str ("hi"))]
  exact ((h.2 ["text"] rfl).2 (by decide)).2 ("ok") rfl

end Tools

namespace Rest

/-- C9 counterexample: the handler accepts priority "critical" (it is in the
source's `validPriorities`), updating the task and returning 200, while the
claim demands 400 and no change. -/
theorem putPriority_critical_accepted :
    (putTaskPriority sampleTasks ("t1") ("critical")).1 =
      PriorityResp.okJson { taskId := "t1", description := "demo",
                            status := "pending", priority := "critical" } ∧
    (putTaskPriority sampleTasks ("t1") ("critical")).2 ≠ sampleTasks := by
  decide

/-- C9 amended: `PUT /tasks/:id/priority` updates the task and returns it
exactly when the body priority is one of low, medium, high, critical; every
other value gets a 400 with the task list unchanged (and an unknown id a 404,
unchanged). -/
theorem putPriority_valid_set (tasks : List Task) (taskId p : String) :
    (p ∉ validPriorities →
      putTaskPriority tasks taskId p = (.badRequest ("Invalid priority value"), tasks)) ∧
    (p ∈ validPriorities →
      (tasks.find? (fun t => t.taskId = taskId) = none →
        putTaskPriority tasks taskId p = (.notFound ("Task not found"), tasks)) ∧
      (∀ t, tasks.find? (fun t => t.taskId = taskId) = some t →
        putTaskPriority tasks taskId p =
          (.okJson { t with priority := p }, setPriorityFirst tasks taskId p))) := by
  refine ⟨fun h => ?_, fun h => ⟨fun hnone => ?_, fun t ht => ?_⟩⟩
  · simp [putTaskPriority, h]
  · simp [putTaskPriority, h, hnone]
  · simp [putTaskPriority, h, ht]

/-- Witness for C9's amended theorem: "urgent" is rejected with 400 and no
change; "low" updates the sample task. -/
theorem putPriority_valid_set_witness :
    putTaskPriority sampleTasks ("t1") ("urgent") =
      (.badRequest ("Invalid priority value"), sampleTasks) ∧
    (putTaskPriority sampleTasks ("t1") ("low")).1 =
      PriorityResp.okJson { taskId := "t1", description := "demo",
                            status := "pending", priority := "low" } := by
  constructor
  · exact (putPriority_valid_set sampleTasks ("t1") ("urgent")).1 (by decide)
  · have h := ((putPriority_valid_set sampleTasks ("t1") ("low")).2 (by decide)).2
      { taskId := "t1", description := "demo", status := "pending",
        priority := "medium" } (by decide)
    rw [h]

end Rest

namespace Supervisor

/-- C7 counterexample: a run whose workflow output records an errored agent
(overall `completed_with_errors`) still ends with task status `completed`,
not `completed_with_errors`. -/
theorem processTask_ignores_agent_errors :
    (processTask sampleTask (.ok sampleDecomposition)
        (.ok { wfStatus := "completed_with_errors", anyAgentErrored := true })).1.status
      = "completed" ∧
    (processTask sampleTask (.ok sampleDecomposition)
        (.ok { wfStatus := "completed_with_errors", anyAgentErrored := true })).1.result
      = some (.wf { wfStatus := "completed_with_errors", anyAgentErrored := true }) ∧
    ("completed" : String) ≠ "completed_with_errors" := by
  decide

/-- C7 amended: when no phase throws the terminal task status is `completed`
regardless of agent errors (agent errors are only recorded inside the stored
workflow result); when a phase throws it is `error`; and the final
task-update broadcast carries the terminal status. -/
theorem processTask_terminal (t : STask) (dec : Except String Decomposition)
    (wf : Except String WorkflowResult) :
    ((processTask t dec wf).1.status = "completed" ∨
      (processTask t dec wf).1.status = "error") ∧
    ((processTask t dec wf).1.status = "completed" ↔
      ∃ d w, dec = .ok d ∧ (∃ ar, generateAgentsFromDecomposition d = .ok ar) ∧
        wf = .ok w) ∧
    (processTask t dec wf).2.getLast? =
      some { status := (processTask t dec wf).1.status } := by
  cases dec with
  | error e => simp [processTask]
  | ok d =>
    cases hsub : d.subtasks with
    | none => simp [processTask, generateAgentsFromDecomposition, hsub]
    | some subs =>
      cases wf with
      | error e => simp [processTask, generateAgentsFromDecomposition, hsub]
      | ok w => simp [processTask, generateAgentsFromDecomposition, hsub]

/-- Witness for C7's amended theorem: a clean run ends `completed`. -/
theorem processTask_terminal_witness :
    (processTask sampleTask (.ok sampleDecomposition)
        (.ok { wfStatus := "completed_successfully", anyAgentErrored := false })).1.status
      = "completed" := by
  have h := processTask_terminal sampleTask (.ok sampleDecomposition)
      (.ok { wfStatus := "completed_successfully", anyAgentErrored := false })
  exact h.2.1.mpr ⟨sampleDecomposition,
    { wfStatus := "completed_successfully", anyAgentErrored := false },
    rfl, ⟨_, rfl⟩, rfl⟩

end Supervisor

namespace Evaluator

/-- Unfolding lemma: a numeric rating survives the `validRatings` filter. -/
theorem validRatings_num_cons (q : ℚ) (rs : List JNum) :
    validRatings (JNum.num q :: rs) = q :: validRatings rs := rfl

/-- Unfolding lemma: `validRatings` of the empty list. -/
theorem validRatings_nil : validRatings [] = [] := rfl

/-- Closed form of the efficiency ladder on a numeric execution time. -/
theorem efficiencyRating_num (t : ℚ) :
    efficiencyRating (.num t) =
      { rating := JNum.num (if t < 1000 then 9 else if t < 5000 then 7 else 4) } := by
  simp only [efficiencyRating]
  split_ifs <;> rfl

/-- C8 counterexample: with LLM ratings 9/8/7 and a 500 ms execution the
efficiency rating is 9 as claimed, but the stored overall is the rounded
8.3, not the arithmetic mean 8.25 of the four ratings. -/
theorem evaluateAgent_overall_rounds :
    (evaluateAgent false false (.num 500)
        (some { accuracy := some { rating := .num 9 },
                completeness := some { rating := .num 8 },
                coherence := some { rating := .num 7 } })).efficiency
      = { rating := .num 9 } ∧
    (evaluateAgent false false (.num 500)
        (some { accuracy := some { rating := .num 9 },
                completeness := some { rating := .num 8 },
                coherence := some { rating := .num 7 } })).overall = 83 / 10 ∧
    ((83 : ℚ) / 10) ≠ (9 + 8 + 7 + 9) / 4 := by
  refine ⟨by decide, ?_, by norm_num⟩
  simp only [evaluateAgent, efficiencyRating]
  norm_num
  simp only [validRatings_num_cons, validRatings_nil]
  norm_num [toFixed1, round_eq]

/-- C8 amended: for an agent report that is not an error, with the metrics
LLM call succeeding with numeric ratings, the efficiency rating follows the
&lt;1s → 9, &lt;5s → 7, else 4 ladder, and the overall score is the arithmetic
mean of the four ratings rounded to one decimal place (`toFixed(1)`). -/
theorem evaluateAgent_efficiency_overall (t a b c : ℚ) :
    (evaluateAgent false false (.num t)
        (some { accuracy := some { rating := .num a },
                completeness := some { rating := .num b },
                coherence := some { rating := .num c } })).efficiency.rating =
      .num (if t < 1000 then 9 else if t < 5000 then 7 else 4) ∧
    (evaluateAgent false false (.num t)
        (some { accuracy := some { rating := .num a },
                completeness := some { rating := .num b },
                coherence := some { rating := .num c } })).overall =
      toFixed1 ((a + b + c + (if t < 1000 then (9 : ℚ) else if t < 5000 then 7 else 4)) / 4) := by
  constructor
  · simp only [evaluateAgent, efficiencyRating_num]
    norm_num
  · simp only [evaluateAgent, efficiencyRating_num]
    norm_num
    simp only [validRatings_num_cons, validRatings_nil]
    norm_num
    congr 1
    ring

/-- The retry loop of `getJsonFromLlmResponse` never falls through: starting
from any attempt index below `maxRetries`, the loop returns before the
post-loop `LLM_MAX_RETRIES_REACHED` record is reachable. -/
theorem getJsonGo_ne_max {V : Type} (σ : Nat → AttemptOutcome V) :
    ∀ fuel attempt delays, maxRetries - attempt = fuel → attempt < maxRetries →
      (getJsonGo σ attempt delays).1 ≠ GetJsonResult.maxRetriesReached := by
  intro fuel
  induction fuel with
  | zero => intro attempt delays hf hlt; omega
  | succ n ih =>
    intro attempt delays hf hlt
    rw [getJsonGo]
    simp only [hlt, dif_pos]
    cases hσ : σ attempt with
    | ok v => simp
    | err e =>
      by_cases hc : e.status = some 429 ∧ attempt < maxRetries - 1
      · simp only [hc, if_pos]
        exact ih (attempt + 1) _ (by omega) (by omega)
      · simp [hc]

/-- C6: `getJsonFromLlmResponse` can never return the
`LLM_MAX_RETRIES_REACHED` record — when all five attempts fail with HTTP 429
the fifth failure takes the catch's else branch and is classified as
`LLM_JSON_PARSING_OR_API_ERROR` instead, after waits of 1s, 2s, 4s, 8s; a
provider-suggested retry delay, when present, replaces the computed
backoff. -/
theorem getJson_maxRetries_unreachable :
    (∀ (V : Type) (σ : Nat → AttemptOutcome V),
      (getJsonFromLlmResponse σ).1 ≠ GetJsonResult.maxRetriesReached) ∧
    getJsonFromLlmResponse allRateLimited =
      (GetJsonResult.apiError 5
         { status := some 429, suggestedDelaySec := none, msg := "429" },
       [1000, 2000, 4000, 8000]) ∧
    getJsonFromLlmResponse
        (fun n => if n = 0 then .err { status := some 429, suggestedDelaySec := some 3,
                                       msg := "429" }
                  else AttemptOutcome.ok ()) =
      (GetJsonResult.parsed (), [3000]) := by
  refine ⟨fun V σ => getJsonGo_ne_max σ maxRetries 0 [] rfl (by norm_num [maxRetries]), ?_, ?_⟩
  · simp [getJsonFromLlmResponse, getJsonGo, allRateLimited, retryAfterMs,
      maxRetries, initialBackoffMs]
  · simp [getJsonFromLlmResponse, getJsonGo, retryAfterMs, maxRetries,
      initialBackoffMs]

/-- Witness for C6: at the concrete all-429 oracle the result is the
`LLM_JSON_PARSING_OR_API_ERROR` record, never `LLM_MAX_RETRIES_REACHED`. -/
theorem getJson_maxRetries_unreachable_witness :
    (getJsonFromLlmResponse allRateLimited).1 ≠ GetJsonResult.maxRetriesReached := by
  exact getJson_maxRetries_unreachable.1 Unit allRateLimited

end Evaluator

namespace Runtime

/-- Loop invariant of the tool loop: the counter never exceeds
`maxToolCallLoops`, the next-call index advances with the counter, and the
loop only ends on a tool-call response when the bound is reached. -/
theorem toolLoopGo_spec {V : Type} (σ : Nat → LlmTurn V) :
    ∀ fuel resp k cnt, maxToolCallLoops - cnt = fuel → cnt ≤ maxToolCallLoops →
      cnt ≤ (toolLoopGo σ resp k cnt).1 ∧
      (toolLoopGo σ resp k cnt).1 ≤ maxToolCallLoops ∧
      (toolLoopGo σ resp k cnt).2.2 + cnt = k + (toolLoopGo σ resp k cnt).1 ∧
      (hasToolCalls (toolLoopGo σ resp k cnt).2.1 = true →
        (toolLoopGo σ resp k cnt).1 = maxToolCallLoops) := by
  intro fuel
  induction fuel with
  | zero =>
    intro resp k cnt hf hle
    have hcnt : cnt = maxToolCallLoops := by omega
    cases resp with
    | answer v => rw [toolLoopGo]; simp [hasToolCalls, hcnt]
    | toolCalls cs => rw [toolLoopGo]; simp [hasToolCalls, hcnt]
  | succ n ih =>
    intro resp k cnt hf hle
    cases resp with
    | answer v => rw [toolLoopGo]; simp [hasToolCalls, hle]
    | toolCalls cs =>
      rw [toolLoopGo]
      by_cases hlt : cnt < maxToolCallLoops
      · simp only [hlt, if_pos]
        have h := ih (σ k) (k + 1) (cnt + 1) (by omega) (by omega)
        refine ⟨by omega, h.2.1, by omega, h.2.2.2⟩
      · simp only [hlt, if_neg, ite_false, hasToolCalls]
        simp
        omega

/-- C4: for every sequence of LLM responses, the agent's tool loop executes
at most `maxToolCallLoops = 5` tool rounds; when the response after the loop
still contains tool calls (which only happens with the counter at the bound)
exactly one additional, final LLM response is requested, so the whole phase
issues at most 7 LLM calls and always terminates. -/
theorem runToolPhase_bounded (V : Type) (σ : Nat → LlmTurn V) :
    (runToolPhase σ).loopCount ≤ maxToolCallLoops ∧
    (runToolPhase σ).llmCalls ≤ maxToolCallLoops + 2 ∧
    (runToolPhase σ).llmCalls =
      (runToolPhase σ).loopCount + 1 +
        (if (runToolPhase σ).forcedFinal then 1 else 0) ∧
    ((runToolPhase σ).forcedFinal = true ↔
      hasToolCalls (toolLoopGo σ (σ 0) 1 0).2.1 = true) ∧
    ((runToolPhase σ).forcedFinal = true →
      (runToolPhase σ).loopCount = maxToolCallLoops ∧
      (runToolPhase σ).finalResponse = σ ((toolLoopGo σ (σ 0) 1 0).2.2)) := by
  obtain ⟨h1, h2, h3, h4⟩ := toolLoopGo_spec σ maxToolCallLoops (σ 0) 1 0 rfl (by omega)
  by_cases hT : hasToolCalls (toolLoopGo σ (σ 0) 1 0).2.1 = true
  · have h5 := h4 hT
    have hcond : hasToolCalls (toolLoopGo σ (σ 0) 1 0).2.1 = true ∧
        (toolLoopGo σ (σ 0) 1 0).1 ≥ maxToolCallLoops := ⟨hT, le_of_eq h5.symm⟩
    simp only [runToolPhase, if_pos hcond]
    simp [hT, h5]
    omega
  · have hcond : ¬ (hasToolCalls (toolLoopGo σ (σ 0) 1 0).2.1 = true ∧
        (toolLoopGo σ (σ 0) 1 0).1 ≥ maxToolCallLoops) := fun hc => hT hc.1
    simp only [runToolPhase, if_neg hcond]
    simp [hT]
    omega

/-- Witness for C4: an LLM that always asks for tools is stopped after
exactly 5 rounds, with the forced final response issued as the 7th call. -/
theorem runToolPhase_bounded_witness :
    (runToolPhase allToolCalls).loopCount = maxToolCallLoops ∧
    (runToolPhase allToolCalls).forcedFinal = true ∧
    (runToolPhase allToolCalls).llmCalls = 7 := by
  have h := runToolPhase_bounded Unit allToolCalls
  have hT : hasToolCalls (toolLoopGo allToolCalls (allToolCalls 0) 1 0).2.1 = true := by
    simp [toolLoopGo, allToolCalls, hasToolCalls, maxToolCallLoops]
  have hF := h.2.2.2.1.mpr hT
  have h5 := (h.2.2.2.2 hF).1
  refine ⟨h5, hF, ?_⟩
  rw [h.2.2.1, hF, h5]
  rfl

end Runtime

namespace Mcp

/-- Splitting off the first non-system message shortens the window by one. -/
theorem removeFirstNonSystem_len :
    ∀ {w : List Msg} {p : Msg × List Msg},
      removeFirstNonSystem w = some p → p.2.length + 1 = w.length := by
  intro w
  induction w with
  | nil => intro p h; simp [removeFirstNonSystem] at h
  | cons x xs ih =>
    intro p h
    by_cases hx : x.role ≠ "system"
    · simp [removeFirstNonSystem, hx] at h
      simp [← h]
    · simp [removeFirstNonSystem, hx] at h
      obtain ⟨q, l, hrec, hq⟩ := h
      have := ih hrec
      simp at this
      simp [← hq, ← this]

/-- When no non-system message exists, every message is a system message. -/
theorem removeFirstNonSystem_none :
    ∀ {w : List Msg}, removeFirstNonSystem w = none → ∀ m ∈ w, m.role = "system" := by
  intro w
  induction w with
  | nil => intro _ m hm; simp at hm
  | cons x xs ih =>
    intro h m hm
    by_cases hx : x.role ≠ "system"
    · simp [removeFirstNonSystem, hx] at h
    · simp [removeFirstNonSystem, hx] at h
      rcases List.mem_cons.mp hm with hmx | hmxs
      · subst hmx; exact not_not.mp hx
      · exact ih h m hmxs

/-- Evicting the first non-system message removes exactly its estimated
tokens from the window total. -/
theorem removeFirstNonSystem_tokens :
    ∀ {w : List Msg} {p : Msg × List Msg},
      removeFirstNonSystem w = some p →
      totalTokens w = estTokens p.1 + totalTokens p.2 := by
  intro w
  induction w with
  | nil => intro p h; simp [removeFirstNonSystem] at h
  | cons x xs ih =>
    intro p h
    by_cases hx : x.role ≠ "system"
    · simp [removeFirstNonSystem, hx] at h
      simp [← h, totalTokens]
    · simp [removeFirstNonSystem, hx] at h
      obtain ⟨q, l, hrec, hq⟩ := h
      have hxs := ih hrec
      subst hq
      simp only [totalTokens, List.map_cons, List.sum_cons] at hxs ⊢
      omega

/-- Postcondition of the eviction loop: starting from the true token total,
it ends with both bounds restored, or at most one message, or only system
messages left. -/
theorem manageGo_post (maxTok : Nat) :
    ∀ n w t, w.length ≤ n → t = totalTokens w →
      (totalTokens (manageGo maxTok w t) ≤ maxTok ∧
        (manageGo maxTok w t).length ≤ maxMessagesHistory) ∨
      (manageGo maxTok w t).length ≤ 1 ∨
      (∀ m ∈ manageGo maxTok w t, m.role = "system") := by
  intro n
  induction n with
  | zero =>
    intro w t hn ht
    have : w = [] := List.length_eq_zero.mp (by omega)
    subst this
    rw [manageGo]
    simp
  | succ n ih =>
    intro w t hn ht
    rw [manageGo]
    by_cases hc : (t > maxTok ∨ w.length > maxMessagesHistory) ∧ w.length > 1
    · simp only [hc, if_pos]
      cases hrem : removeFirstNonSystem w with
      | none =>
        exact Or.inr (Or.inr (removeFirstNonSystem_none hrem))
      | some p =>
        have hlen := removeFirstNonSystem_len hrem
        have htok := removeFirstNonSystem_tokens hrem
        exact ih p.2 (t - estTokens p.1) (by omega) (by omega)
    · simp only [hc, if_neg, ite_false]
      rcases not_and_or.mp hc with hA | hB
      · push_neg at hA
        exact Or.inl ⟨by omega, by omega⟩
      · exact Or.inr (Or.inl (by omega))

/-- C5 counterexample: with `maxContextTokens = 4`, inserting a single
20-character user message leaves one non-system message of 5 estimated
tokens — the token bound is violated yet the window is not "the system
message and one other", so the claimed disjunction fails. -/
theorem addToContext_single_over_budget :
    addToContext 4 [] ("user") ("aaaaaaaaaaaaaaaaaaaa") false =
      [{ role := "user", content := "aaaaaaaaaaaaaaaaaaaa" }] ∧
    totalTokens [{ role := "user", content := "aaaaaaaaaaaaaaaaaaaa" }] = 5 ∧
    ¬ ∃ s m, ([{ role := "user", content := "aaaaaaaaaaaaaaaaaaaa" }] : List Msg)
        = [s, m] ∧ s.role = "system" := by
  refine ⟨?_, by decide, by simp⟩
  rw [addToContext]
  simp only [if_neg Bool.false_ne_true, ite_false]
  rw [manageContextWindow, manageGo]
  simp

/-- C5 amended: after every `addToContext`, either both bounds hold
(estimated tokens ≤ `maxContextTokens` and at most 30 messages), or eviction
stopped because at most one message remains, or because every remaining
message is a system message (the source keeps `role: "system"` messages that
are not the instruction, and evicts down to one message, not two). -/
theorem addToContext_post (maxTok : Nat) (w : List Msg) (role content : String)
    (isSys : Bool) :
    (totalTokens (addToContext maxTok w role content isSys) ≤ maxTok ∧
      (addToContext maxTok w role content isSys).length ≤ maxMessagesHistory) ∨
    (addToContext maxTok w role content isSys).length ≤ 1 ∨
    (∀ m ∈ addToContext maxTok w role content isSys, m.role = "system") := by
  rw [addToContext]
  exact manageGo_post maxTok
    (if isSys then ⟨role, content⟩ :: w else w ++ [⟨role, content⟩]).length _ _
    le_rfl rfl

/-- Witness for C5's amended theorem at a concrete insertion. -/
theorem addToContext_post_witness :
    (totalTokens (addToContext 8000 [] ("user") ("hi") false) ≤ 8000 ∧
      (addToContext 8000 [] ("user") ("hi") false).length ≤ maxMessagesHistory) ∨
    (addToContext 8000 [] ("user") ("hi") false).length ≤ 1 ∨
    (∀ m ∈ addToContext 8000 [] ("user") ("hi") false, m.role = "system") :=
  addToContext_post 8000 [] ("user") ("hi") false

end Mcp

namespace Engine

/-- A successful association-list lookup exposes a member pair. -/
theorem mem_of_lookup {β : Type _} :
    ∀ {l : List (String × β)} {k : String} {v : β},
      l.lookup k = some v → (k, v) ∈ l := by
  intro l
  induction l with
  | nil => intro k v h; simp [List.lookup] at h
  | cons x xs ih =>
    intro k v h
    rw [List.lookup] at h
    by_cases hk : k == x.1
    · simp only [hk] at h
      cases h
      have hkx : k = x.1 := by simpa using hk
      subst hkx
      exact List.mem_cons_self x xs
    · simp only [Bool.not_eq_true] at hk
      simp only [hk] at h
      exact List.mem_cons_of_mem _ (ih h)

/-- A lookup succeeds exactly when the key occurs in the list. -/
theorem lookup_isSome_iff {β : Type _} :
    ∀ (l : List (String × β)) (k : String),
      (l.lookup k).isSome ↔ k ∈ l.map Prod.fst := by
  intro l
  induction l with
  | nil => intro k; simp [List.lookup]
  | cons x xs ih =>
    intro k
    rw [List.lookup]
    by_cases hk : k == x.1
    · simp only [hk]
      have : k = x.1 := by simpa using hk
      simp [this]
    · simp only [Bool.not_eq_true] at hk
      simp only [hk]
      have hne : k ≠ x.1 := by simpa using hk
      simp [ih, hne]

/-- Membership in the modelled `Set.add`. -/
theorem mem_setInsert {l : List String} {x y : String} :
    y ∈ setInsert l x ↔ y = x ∨ y ∈ l := by
  by_cases hx : x ∈ l
  · simp only [setInsert, hx, if_pos]
    constructor
    · exact fun h => Or.inr h
    · rintro (rfl | h) <;> [exact hx; exact h]
  · simp [setInsert, hx]

/-- `Set.add` keeps the id set duplicate-free. -/
theorem setInsert_nodup {l : List String} {x : String} (h : l.Nodup) :
    (setInsert l x).Nodup := by
  by_cases hx : x ∈ l
  · simpa [setInsert, hx] using h
  · rw [setInsert, if_neg hx]
    exact List.nodup_cons.mpr ⟨hx, h⟩

/-- `Set.add` only grows the set. -/
theorem subset_setInsert (l : List String) (x : String) : l ⊆ setInsert l x := by
  intro y hy
  exact mem_setInsert.mpr (Or.inr hy)

/-- Membership in `executionResults` after a cohort stored its reports. -/
theorem mem_pushReports {V : Type} :
    ∀ {reports : List (Report V)} {results : List (String × Report V)}
      {pr : String × Report V},
      pr ∈ pushReports reports results ↔
        (∃ r ∈ reports, pr = (r.agentId, r)) ∨ pr ∈ results := by
  intro reports
  induction reports with
  | nil => intro results pr; simp [pushReports]
  | cons r rs ih =>
    intro results pr
    rw [pushReports] at *
    simp only [List.foldl_cons]
    rw [show List.foldl (fun acc r => (r.agentId, r) :: acc) ((r.agentId, r) :: results) rs
          = pushReports rs ((r.agentId, r) :: results) from rfl]
    rw [ih]
    simp only [List.mem_cons]
    constructor
    · rintro (⟨q, hq, rfl⟩ | (h | h))
      · exact Or.inl ⟨q, Or.inr hq, rfl⟩
      · exact Or.inl ⟨r, Or.inl rfl, h⟩
      · exact Or.inr h
    · rintro (⟨q, hq | hq, rfl⟩ | h)
      · exact Or.inr (Or.inl (by rw [hq]))
      · exact Or.inl ⟨q, hq, rfl⟩
      · exact Or.inr (Or.inr h)

/-- Lookup into stored cohort reports succeeds for the cohort's ids and for
whatever succeeded before. -/
theorem lookup_pushReports_isSome {V : Type} :
    ∀ {reports : List (Report V)} {results : List (String × Report V)} {k : String},
      ((pushReports reports results).lookup k).isSome ↔
        k ∈ reports.map Report.agentId ∨ (results.lookup k).isSome := by
  intro reports
  induction reports with
  | nil => intro results k; simp [pushReports]
  | cons r rs ih =>
    intro results k
    rw [pushReports]
    simp only [List.foldl_cons]
    rw [show List.foldl (fun acc r => (r.agentId, r) :: acc) ((r.agentId, r) :: results) rs
          = pushReports rs ((r.agentId, r) :: results) from rfl]
    rw [ih]
    by_cases hk : k = r.agentId
    · subst hk
      simp [List.lookup]
    · have : (k == r.agentId) = false := by simpa using hk
      simp [List.lookup, this, hk]

/-- Membership in `completedAgentIds` after a cohort of terminal reports was
added. -/
theorem mem_addCompleted {V : Type} :
    ∀ {reports : List (Report V)} {completed : List String} {id : String},
      (∀ r ∈ reports, isTerminalStatus r.status = true) →
      (id ∈ addCompleted reports completed ↔
        id ∈ reports.map Report.agentId ∨ id ∈ completed) := by
  intro reports
  induction reports with
  | nil => intro completed id _; simp [addCompleted]
  | cons r rs ih =>
    intro completed id hterm
    rw [addCompleted]
    simp only [List.foldl_cons, hterm r (List.mem_cons_self _ _), if_pos]
    rw [show List.foldl
          (fun acc r => if isTerminalStatus r.status then setInsert acc r.agentId else acc)
          (setInsert completed r.agentId) rs = addCompleted rs (setInsert completed r.agentId)
        from rfl]
    rw [ih (fun q hq => hterm q (List.mem_cons_of_mem _ hq))]
    rw [mem_setInsert]
    simp only [List.map_cons, List.mem_cons]
    tauto

/-- Adding a cohort keeps `completedAgentIds` duplicate-free. -/
theorem addCompleted_nodup {V : Type} :
    ∀ {reports : List (Report V)} {completed : List String},
      completed.Nodup → (addCompleted reports completed).Nodup := by
  intro reports
  induction reports with
  | nil => intro completed h; simpa [addCompleted] using h
  | cons r rs ih =>
    intro completed h
    rw [addCompleted]
    simp only [List.foldl_cons]
    by_cases ht : isTerminalStatus r.status
    · rw [if_pos ht]
      exact ih (setInsert_nodup h)
    · rw [if_neg ht]
      exact ih h

/-- Adding a cohort only grows `completedAgentIds`. -/
theorem subset_addCompleted {V : Type} :
    ∀ (reports : List (Report V)) (completed : List String),
      completed ⊆ addCompleted reports completed := by
  intro reports
  induction reports with
  | nil => intro completed; simp [addCompleted]
  | cons r rs ih =>
    intro completed
    rw [addCompleted]
    simp only [List.foldl_cons]
    by_cases ht : isTerminalStatus r.status
    · rw [if_pos ht]
      exact fun y hy => ih (setInsert completed r.agentId) (subset_setInsert _ _ hy)
    · rw [if_neg ht]
      exact ih completed

/-- Every report produced by running an agent is terminal. -/
theorem execEntry_terminal {V : Type} (oracle : String → Outcome V) (a : AgentCfg) :
    isTerminalStatus (execEntry oracle a).status = true := by
  rw [execEntry]
  by_cases h : (oracle a.agentId).success
  · simp [h, isTerminalStatus]
  · simp [h, isTerminalStatus]

/-- The status of a freshly run agent is never `pending`. -/
theorem execEntry_ne_pending {V : Type} (oracle : String → Outcome V) (a : AgentCfg) :
    (execEntry oracle a).status ≠ AStatus.pending := by
  rw [execEntry]
  by_cases h : (oracle a.agentId).success <;> simp [h]

/-- Terminal statuses are exactly `completed` and `error`. -/
theorem isTerminalStatus_iff {st : AStatus} :
    isTerminalStatus st = true ↔ st = AStatus.completed ∨ st = AStatus.error := by
  cases st <;> simp [isTerminalStatus]

/-- Unfolding of the readiness predicate. -/
theorem isReady_iff {V : Type} {s : EngineState V} {p : AgentCfg × AStatus} :
    isReady s p = true ↔
      p.2 = AStatus.pending ∧ ∀ d ∈ p.1.dependencies, d ∈ s.completed := by
  simp [isReady, List.all_eq_true]

/-- Group insertion reaches exactly the old members plus the inserted
agent. -/
theorem insertGrouped_mem_iff :
    ∀ (gs : List (String × List AgentCfg)) (k : String) (a b : AgentCfg),
      (∃ kg ∈ insertGrouped gs k a, b ∈ kg.2) ↔ (∃ kg ∈ gs, b ∈ kg.2) ∨ b = a := by
  intro gs
  induction gs with
  | nil =>
    intro k a b
    simp [insertGrouped, eq_comm]
  | cons g rest ih =>
    intro k a b
    obtain ⟨kg0, l⟩ := g
    rw [insertGrouped]
    by_cases hk : kg0 = k
    · rw [if_pos hk]
      constructor
      · rintro ⟨kg, hkg, hb⟩
        rcases List.mem_cons.mp hkg with rfl | hkg'
        · rcases List.mem_append.mp hb with hb' | hb'
          · exact Or.inl ⟨(kg0, l), List.mem_cons_self _ _, hb'⟩
          · exact Or.inr (List.mem_singleton.mp hb')
        · exact Or.inl ⟨kg, List.mem_cons_of_mem _ hkg', hb⟩
      · rintro (⟨kg, hkg, hb⟩ | hba)
        · rcases List.mem_cons.mp hkg with rfl | hkg'
          · exact ⟨(kg0, l ++ [a]), List.mem_cons_self _ _,
              List.mem_append.mpr (Or.inl hb)⟩
          · exact ⟨kg, List.mem_cons_of_mem _ hkg', hb⟩
        · subst hba
          exact ⟨(kg0, l ++ [b]), List.mem_cons_self _ _,
            List.mem_append.mpr (Or.inr (List.mem_singleton.mpr rfl))⟩
    · rw [if_neg hk]
      constructor
      · rintro ⟨kg, hkg, hb⟩
        rcases List.mem_cons.mp hkg with rfl | hkg'
        · exact Or.inl ⟨(kg0, l), List.mem_cons_self _ _, hb⟩
        · rcases (ih k a b).mp ⟨kg, hkg', hb⟩ with ⟨kg', h1, h2⟩ | hba
          · exact Or.inl ⟨kg', List.mem_cons_of_mem _ h1, h2⟩
          · exact Or.inr hba
      · rintro (⟨kg, hkg, hb⟩ | hba)
        · rcases List.mem_cons.mp hkg with rfl | hkg'
          · exact ⟨(kg0, l), List.mem_cons_self _ _, hb⟩
          · obtain ⟨kg', h1, h2⟩ := (ih k a b).mpr (Or.inl ⟨kg, hkg', hb⟩)
            exact ⟨kg', List.mem_cons_of_mem _ h1, h2⟩
        · obtain ⟨kg', h1, h2⟩ := (ih k a b).mpr (Or.inr hba)
          exact ⟨kg', List.mem_cons_of_mem _ h1, h2⟩

/-- The grouping fold reaches exactly the accumulated members plus the
agents of the processed list. -/
theorem groupReady_aux (b : AgentCfg) :
    ∀ (l : List (AgentCfg × AStatus)) (gs : List (String × List AgentCfg)),
      (∃ kg ∈ l.foldl (fun gs p => insertGrouped gs (groupKey p.1) p.1) gs, b ∈ kg.2) ↔
        (∃ kg ∈ gs, b ∈ kg.2) ∨ (∃ st, (b, st) ∈ l) := by
  intro l
  induction l with
  | nil => intro gs; simp
  | cons p rest ih =>
    intro gs
    rw [List.foldl_cons, ih]
    rw [insertGrouped_mem_iff]
    simp only [List.mem_cons]
    constructor
    · rintro ((h | rfl) | ⟨st, hst⟩)
      · exact Or.inl h
      · exact Or.inr ⟨p.2, Or.inl (by cases p; rfl)⟩
      · exact Or.inr ⟨st, Or.inr hst⟩
    · rintro (h | ⟨st, hp | hst⟩)
      · exact Or.inl (Or.inl h)
      · exact Or.inl (Or.inr (by rw [← hp]))
      · exact Or.inr ⟨st, hst⟩

/-- An agent is in some execution group exactly when it is ready. -/
theorem groupReady_mem_iff {ready : List (AgentCfg × AStatus)} {b : AgentCfg} :
    (∃ kg ∈ groupReady ready, b ∈ kg.2) ↔ ∃ st, (b, st) ∈ ready := by
  rw [groupReady, groupReady_aux]
  simp

/-- Running one cohort preserves the mid-iteration invariant: reports and
completion marks are added for exactly the cohort's agents, the dispatch
contexts recorded for the cohort satisfy the context-completeness property,
and nothing is removed. -/
theorem runGroup_mid {V : Type} (oracle : String → Outcome V) (s0 st : EngineState V)
    (grp : List AgentCfg)
    (hmid : MidInv s0 st)
    (hgrp : ∀ a ∈ grp, ∃ stt, (a, stt) ∈ s0.agents ∧ isReady s0 (a, stt) = true) :
    MidInv s0 (runGroup oracle st grp) ∧
    st.completed ⊆ (runGroup oracle st grp).completed ∧
    (∀ a ∈ grp, a.agentId ∈ (runGroup oracle st grp).completed) ∧
    (∀ ev ∈ st.events, ev ∈ (runGroup oracle st grp).events) := by
  obtain ⟨hag, hnd, hlook, hwf, hdisp, hsub, hupper⟩ := hmid
  have hterm : ∀ r ∈ grp.map (execEntry oracle), isTerminalStatus r.status = true := by
    intro r hr
    obtain ⟨a, _, rfl⟩ := List.mem_map.mp hr
    exact execEntry_terminal oracle a
  have hagents : (runGroup oracle st grp).agents = st.agents := rfl
  have hcomp : (runGroup oracle st grp).completed
      = addCompleted (grp.map (execEntry oracle)) st.completed := rfl
  have hres : (runGroup oracle st grp).results
      = pushReports (grp.map (execEntry oracle)) st.results := rfl
  have hsubc : st.completed ⊆ (runGroup oracle st grp).completed := by
    rw [hcomp]; exact subset_addCompleted _ _
  have hmemev : ∀ ev ∈ st.events, ev ∈ (runGroup oracle st grp).events := by
    intro ev hev
    show ev ∈ st.events ++ _ ++ _
    exact List.mem_append_left _ (List.mem_append_left _ hev)
  have hmemres : ∀ pr ∈ st.results, pr ∈ (runGroup oracle st grp).results := by
    intro pr hpr
    rw [hres]
    exact mem_pushReports.mpr (Or.inr hpr)
  refine ⟨⟨hag ▸ hagents, ?_, ?_, ?_, ?_, ?_, ?_⟩, hsubc, ?_, hmemev⟩
  · rw [hcomp]; exact addCompleted_nodup hnd
  · intro k
    rw [hres, hcomp, lookup_pushReports_isSome, mem_addCompleted hterm, hlook]
  · intro pr hpr
    rw [hres] at hpr
    rcases mem_pushReports.mp hpr with ⟨r, hr, rfl⟩ | hold
    · exact ⟨hterm r hr, rfl⟩
    · exact hwf pr hold
  · -- DispatchOk for the extended event list
    intro id ctx hev
    have hev' : Event.dispatched id ctx ∈
        st.events ++ (grp.flatMap (fun a =>
          [Event.readyToExecute a.agentId,
           Event.dispatched a.agentId (buildContext st.results a)]))
          ++ (grp.map (execEntry oracle)).map Event.reportEv := hev
    rcases List.mem_append.mp hev' with hev2 | hev2
    · rcases List.mem_append.mp hev2 with hevOld | hevNew
      · obtain ⟨a, ⟨stt, hstt⟩, hid, hkeys, hvals⟩ := hdisp id ctx hevOld
        refine ⟨a, ⟨stt, by rw [hagents]; exact hstt⟩, hid, hkeys, ?_⟩
        intro pr hpr
        obtain ⟨rep, hrepmem, hval, hterm'⟩ := hvals pr hpr
        exact ⟨rep, hmemres _ hrepmem, hval, hterm'⟩
      · obtain ⟨a, ha, hmem2⟩ := List.mem_flatMap.mp hevNew
        have : Event.dispatched id ctx = Event.dispatched a.agentId (buildContext st.results a) := by
          simp only [List.mem_cons, List.not_mem_nil, or_false] at hmem2
          rcases hmem2 with h | h
          · exact absurd h (by simp)
          · exact h
        cases this
        obtain ⟨stt, hstt, hready⟩ := hgrp a ha
        refine ⟨a, ⟨stt, by rw [hagents, hag]; exact hstt⟩, rfl, ?_, ?_⟩
        · simp [buildContext, List.map_map, Function.comp_def]
        · intro pr hpr
          obtain ⟨d, hd, rfl⟩ := List.mem_map.mp hpr
          have hdc : d ∈ s0.completed := (isReady_iff.mp hready).2 d hd
          have hdc' : d ∈ st.completed := hsub hdc
          have hsome : (st.results.lookup d).isSome := (hlook d).mpr hdc'
          obtain ⟨rep, hrep⟩ := Option.isSome_iff_exists.mp hsome
          refine ⟨rep, hmemres _ (mem_of_lookup hrep), by simp [hrep], ?_⟩
          exact isTerminalStatus_iff.mp (hwf (d, rep) (mem_of_lookup hrep)).1
    · obtain ⟨r, _, hcontra⟩ := List.mem_map.mp hev2
      cases hcontra
  · exact fun y hy => hsubc (hsub hy)
  · intro id hid
    rw [hcomp, mem_addCompleted hterm] at hid
    rcases hid with hnew | hold
    · obtain ⟨r, hr, rfl⟩ := List.mem_map.mp hnew
      obtain ⟨a, ha, rfl⟩ := List.mem_map.mp hr
      obtain ⟨stt, hstt, hready⟩ := hgrp a ha
      exact Or.inr ⟨(a, stt), hstt, hready, rfl⟩
    · exact hupper id hold
  · intro a ha
    rw [hcomp, mem_addCompleted hterm]
    exact Or.inl (List.mem_map.mpr ⟨execEntry oracle a, List.mem_map.mpr ⟨a, ha, rfl⟩, rfl⟩)

/-- Counting split along a subordinate predicate. -/
theorem countP_split {α : Type _} :
    ∀ (l : List α) (p q : α → Bool), (∀ a, q a = true → p a = true) →
      l.countP p = l.countP q + l.countP (fun a => p a && !q a) := by
  intro l
  induction l with
  | nil => intro p q _; simp
  | cons x xs ih =>
    intro p q hpq
    rw [List.countP_cons, List.countP_cons, List.countP_cons, ih p q hpq]
    by_cases hq : q x = true
    · simp [hq, hpq x hq]
      omega
    · simp only [Bool.not_eq_true] at hq
      by_cases hp : p x = true
      · simp [hp, hq]
        omega
      · simp only [Bool.not_eq_true] at hp
        simp [hp, hq]

/-- Folding a whole iteration's groups preserves the mid-iteration invariant
and completes every grouped agent. -/
theorem runGroups_mid {V : Type} (oracle : String → Outcome V) (s0 : EngineState V) :
    ∀ (gs : List (String × List AgentCfg)) (st : EngineState V),
      MidInv s0 st →
      (∀ kg ∈ gs, ∀ a ∈ kg.2, ∃ stt, (a, stt) ∈ s0.agents ∧ isReady s0 (a, stt) = true) →
      MidInv s0 (gs.foldl (fun acc g => runGroup oracle acc g.2) st) ∧
      st.completed ⊆ (gs.foldl (fun acc g => runGroup oracle acc g.2) st).completed ∧
      (∀ kg ∈ gs, ∀ a ∈ kg.2,
        a.agentId ∈ (gs.foldl (fun acc g => runGroup oracle acc g.2) st).completed) := by
  intro gs
  induction gs with
  | nil =>
    intro st hmid _
    exact ⟨hmid, fun y hy => hy, by simp⟩
  | cons g rest ih =>
    intro st hmid hgs
    rw [List.foldl_cons]
    obtain ⟨hmid', hsub', hgrp', _⟩ :=
      runGroup_mid oracle s0 st g.2 hmid (hgs g (List.mem_cons_self _ _))
    obtain ⟨hmidF, hsubF, hidsF⟩ :=
      ih (runGroup oracle st g.2) hmid' (fun kg hkg => hgs kg (List.mem_cons_of_mem _ hkg))
    refine ⟨hmidF, fun y hy => hsubF (hsub' hy), ?_⟩
    intro kg hkg a ha
    rcases List.mem_cons.mp hkg with rfl | hkg'
    · exact hsubF (hgrp' a ha)
    · exact hidsF kg hkg' a ha

/-- Executing the ready agents of one iteration preserves the loop invariant
and the dispatch-trace invariant, keeps the agent list (by config), and
turns exactly the ready agents non-pending. -/
theorem runReady_inv {V : Type} (oracle : String → Outcome V) (s : EngineState V)
    (hinv : Inv s) (hdisp : DispatchOk s) :
    Inv (runReady oracle s) ∧ DispatchOk (runReady oracle s) ∧
    (runReady oracle s).agents.map Prod.fst = s.agents.map Prod.fst ∧
    countPending (runReady oracle s) + (readyAgents s).length = countPending s := by
  obtain ⟨hnd, hwitness, hterm2comp, hlook, hwf⟩ := hinv
  have hmid0 : MidInv s s :=
    ⟨rfl, hnd, hlook, hwf, hdisp, fun y hy => hy, fun id h => Or.inl h⟩
  have hgs : ∀ kg ∈ groupReady (readyAgents s), ∀ a ∈ kg.2,
      ∃ stt, (a, stt) ∈ s.agents ∧ isReady s (a, stt) = true := by
    intro kg hkg a ha
    obtain ⟨stt, hstt⟩ := groupReady_mem_iff.mp ⟨kg, hkg, ha⟩
    have := List.mem_filter.mp hstt
    exact ⟨stt, this.1, this.2⟩
  obtain ⟨hmidF, hsubF, hidsF⟩ :=
    runGroups_mid oracle s (groupReady (readyAgents s)) s hmid0 hgs
  obtain ⟨hagF, hndF, hlookF, hwfF, hdispF, hsubF', hupperF⟩ := hmidF
  have hagentsR : (runReady oracle s).agents
      = s.agents.map (fun p =>
          if isReady s p then (p.1, (execEntry oracle p.1).status) else p) := rfl
  have hfieldsR : (runReady oracle s).completed
        = ((groupReady (readyAgents s)).foldl
            (fun acc g => runGroup oracle acc g.2) s).completed ∧
      (runReady oracle s).results
        = ((groupReady (readyAgents s)).foldl
            (fun acc g => runGroup oracle acc g.2) s).results ∧
      (runReady oracle s).events
        = ((groupReady (readyAgents s)).foldl
            (fun acc g => runGroup oracle acc g.2) s).events := ⟨rfl, rfl, rfl⟩
  obtain ⟨hcompR, hresR, hevR⟩ := hfieldsR
  have hnotready : ∀ p : AgentCfg × AStatus,
      (p.2 = AStatus.completed ∨ p.2 = AStatus.error) → isReady s p = false := by
    intro p hp
    by_cases h : isReady s p = true
    · exfalso
      have := (isReady_iff.mp h).1
      rcases hp with hp | hp <;> simp [hp] at this
    · simpa using h
  refine ⟨⟨?_, ?_, ?_, ?_, ?_⟩, ?_, ?_, ?_⟩
  · rw [hcompR]; exact hndF
  · -- every completed id has a terminal agent entry
    intro id hid
    rw [hcompR] at hid
    rcases hupperF id hid with hold | ⟨p, hp, hready, hpid⟩
    · obtain ⟨p, hp, hpid, hpterm⟩ := hwitness id hold
      refine ⟨p, ?_, hpid, hpterm⟩
      rw [hagentsR]
      exact List.mem_map.mpr ⟨p, hp, by rw [if_neg (by simp [hnotready p hpterm])]⟩
    · refine ⟨(p.1, (execEntry oracle p.1).status), ?_, hpid, ?_⟩
      · rw [hagentsR]
        exact List.mem_map.mpr ⟨p, hp, by rw [if_pos hready]⟩
      · exact isTerminalStatus_iff.mp (execEntry_terminal oracle p.1)
  · -- every terminal agent entry is completed
    intro q hq hqterm
    rw [hagentsR] at hq
    obtain ⟨p, hp, hfp⟩ := List.mem_map.mp hq
    by_cases hready : isReady s p = true
    · rw [if_pos hready] at hfp
      obtain ⟨kg, hkg, hmemkg⟩ := groupReady_mem_iff.mpr
        ⟨p.2, by rw [show (p.1, p.2) = p from rfl]; exact List.mem_filter.mpr ⟨hp, hready⟩⟩
      rw [hcompR, ← hfp]
      exact hidsF kg hkg p.1 hmemkg
    · rw [if_neg hready] at hfp
      subst hfp
      rw [hcompR]
      exact hsubF (hterm2comp p hp hqterm)
  · intro k
    rw [hresR, hcompR]
    exact hlookF k
  · intro pr hpr
    rw [hresR] at hpr
    exact hwfF pr hpr
  · -- DispatchOk after the status write-back
    intro id ctx hev
    rw [hevR] at hev
    obtain ⟨a, ⟨stt, hstt⟩, hid, hkeys, hvals⟩ := hdispF id ctx hev
    rw [hagF] at hstt
    refine ⟨a, ⟨(if isReady s (a, stt) = true then (execEntry oracle a).status else stt),
      ?_⟩, hid, hkeys, ?_⟩
    · rw [hagentsR]
      refine List.mem_map.mpr ⟨(a, stt), hstt, ?_⟩
      by_cases hr : isReady s (a, stt) = true
      · simp [hr]
      · simp [hr]
    · intro pr hpr
      obtain ⟨rep, hmem, hval, ht⟩ := hvals pr hpr
      exact ⟨rep, by rw [hresR]; exact hmem, hval, ht⟩
  · rw [hagentsR, List.map_map]
    refine List.map_congr_left ?_
    intro p _
    by_cases hready : isReady s p = true
    · simp [hready, Function.comp]
    · simp [hready, Function.comp]
  · -- the pending count drops by exactly the number of ready agents
    simp only [countPending, readyAgents, ← List.countP_eq_length_filter]
    rw [hagentsR, List.countP_map]
    have hcongr : ∀ p ∈ s.agents,
        ((fun q : AgentCfg × AStatus => q.2 == AStatus.pending) ∘
          (fun q => if isReady s q then (q.1, (execEntry oracle q.1).status) else q)) p = true ↔
        ((fun q : AgentCfg × AStatus => !(isReady s q) && (q.2 == AStatus.pending)) p) = true := by
      intro p _
      by_cases hready : isReady s p = true
      · simp [hready, Function.comp, execEntry_ne_pending oracle p.1]
      · simp only [Bool.not_eq_true] at hready
        simp [hready, Function.comp]
    rw [List.countP_congr hcongr]
    have hsplit := countP_split s.agents
      (fun q : AgentCfg × AStatus => q.2 == AStatus.pending) (isReady s)
      (fun q hq => by simpa using (isReady_iff.mp hq).1)
    rw [hsplit]
    have h2 : (List.countP (fun a : AgentCfg × AStatus =>
          (fun q : AgentCfg × AStatus => q.2 == AStatus.pending) a && !(isReady s a))
          s.agents)
        = List.countP (fun q : AgentCfg × AStatus =>
            !(isReady s q) && (q.2 == AStatus.pending)) s.agents := by
      refine List.countP_congr ?_
      intro q _
      constructor <;> (intro h; simpa [Bool.and_comm] using h)
    rw [h2]
    omega

/-- The error-cascade marking keeps both invariants: it touches only
still-pending agents and leaves reports and the completed set alone. -/
theorem markBlocked_inv {V : Type} (s : EngineState V)
    (hinv : Inv s) (hdisp : DispatchOk s) :
    Inv (markBlocked s) ∧ DispatchOk (markBlocked s) ∧
    (markBlocked s).agents.map Prod.fst = s.agents.map Prod.fst := by
  obtain ⟨hnd, hwitness, hterm2comp, hlook, hwf⟩ := hinv
  have hag : (markBlocked s).agents
      = s.agents.map (fun p => if isMarkable s p then (p.1, AStatus.blockedError) else p) := rfl
  have hnotmark : ∀ p : AgentCfg × AStatus,
      (p.2 = AStatus.completed ∨ p.2 = AStatus.error) → isMarkable s p = false := by
    intro p hp
    rcases hp with hp | hp <;> simp [isMarkable, hp]
  refine ⟨⟨hnd, ?_, ?_, hlook, hwf⟩, ?_, ?_⟩
  · intro id hid
    obtain ⟨p, hp, hpid, hpterm⟩ := hwitness id hid
    refine ⟨p, ?_, hpid, hpterm⟩
    rw [hag]
    exact List.mem_map.mpr ⟨p, hp, by rw [if_neg (by simp [hnotmark p hpterm])]⟩
  · intro q hq hqterm
    rw [hag] at hq
    obtain ⟨p, hp, hfp⟩ := List.mem_map.mp hq
    by_cases hm : isMarkable s p = true
    · rw [if_pos hm] at hfp
      rw [← hfp] at hqterm
      simp at hqterm
    · rw [if_neg (by simp [hm])] at hfp
      subst hfp
      exact hterm2comp p hp hqterm
  · intro id ctx hev
    have hev' : Event.dispatched id ctx ∈ s.events ++
        (s.agents.filter (isMarkable s)).map (fun p => Event.blockedEv p.1.agentId) := hev
    rcases List.mem_append.mp hev' with hold | hnew
    · obtain ⟨a, ⟨stt, hstt⟩, hid, hkeys, hvals⟩ := hdisp id ctx hold
      refine ⟨a, ⟨(if isMarkable s (a, stt) = true then AStatus.blockedError else stt), ?_⟩,
        hid, hkeys, hvals⟩
      rw [hag]
      refine List.mem_map.mpr ⟨(a, stt), hstt, ?_⟩
      split_ifs <;> rfl
    · obtain ⟨p, _, hcontra⟩ := List.mem_map.mp hnew
      cases hcontra
  · rw [hag, List.map_map]
    refine List.map_congr_left ?_
    intro p _
    by_cases hm : isMarkable s p = true
    · simp [hm, Function.comp]
    · simp [hm, Function.comp]

/-- The stall marking keeps both invariants, for the same reasons. -/
theorem markStalled_inv {V : Type} (s : EngineState V)
    (hinv : Inv s) (hdisp : DispatchOk s) :
    Inv (markStalled s) ∧ DispatchOk (markStalled s) ∧
    (markStalled s).agents.map Prod.fst = s.agents.map Prod.fst := by
  obtain ⟨hnd, hwitness, hterm2comp, hlook, hwf⟩ := hinv
  have hag : (markStalled s).agents
      = s.agents.map (fun p => if isMarkable s p then (p.1, AStatus.stalled) else p) := rfl
  have hnotmark : ∀ p : AgentCfg × AStatus,
      (p.2 = AStatus.completed ∨ p.2 = AStatus.error) → isMarkable s p = false := by
    intro p hp
    rcases hp with hp | hp <;> simp [isMarkable, hp]
  refine ⟨⟨hnd, ?_, ?_, hlook, hwf⟩, ?_, ?_⟩
  · intro id hid
    obtain ⟨p, hp, hpid, hpterm⟩ := hwitness id hid
    refine ⟨p, ?_, hpid, hpterm⟩
    rw [hag]
    exact List.mem_map.mpr ⟨p, hp, by rw [if_neg (by simp [hnotmark p hpterm])]⟩
  · intro q hq hqterm
    rw [hag] at hq
    obtain ⟨p, hp, hfp⟩ := List.mem_map.mp hq
    by_cases hm : isMarkable s p = true
    · rw [if_pos hm] at hfp
      rw [← hfp] at hqterm
      simp at hqterm
    · rw [if_neg (by simp [hm])] at hfp
      subst hfp
      exact hterm2comp p hp hqterm
  · intro id ctx hev
    have hev' : Event.dispatched id ctx ∈ s.events ++
        (s.agents.filter (isMarkable s)).map (fun p => Event.stalledEv p.1.agentId) := hev
    rcases List.mem_append.mp hev' with hold | hnew
    · obtain ⟨a, ⟨stt, hstt⟩, hid, hkeys, hvals⟩ := hdisp id ctx hold
      refine ⟨a, ⟨(if isMarkable s (a, stt) = true then AStatus.stalled else stt), ?_⟩,
        hid, hkeys, hvals⟩
      rw [hag]
      refine List.mem_map.mpr ⟨(a, stt), hstt, ?_⟩
      split_ifs <;> rfl
    · obtain ⟨p, _, hcontra⟩ := List.mem_map.mp hnew
      cases hcontra
  · rw [hag, List.map_map]
    refine List.map_congr_left ?_
    intro p _
    by_cases hm : isMarkable s p = true
    · simp [hm, Function.comp]
    · simp [hm, Function.comp]

/-- Under the invariant, `completedAgentIds` never outnumbers the agents. -/
theorem completed_length_le {V : Type} {s : EngineState V} (hinv : Inv s) :
    s.completed.length ≤ s.agents.length := by
  have hsub : s.completed ⊆ s.agents.map (fun p => p.1.agentId) := by
    intro id hid
    obtain ⟨p, hp, hpid, _⟩ := hinv.2.1 id hid
    exact List.mem_map.mpr ⟨p, hp, hpid⟩
  have := (hinv.1.subperm hsub).length_le
  simpa using this

/-- One loop iteration either breaks with the invariants intact, or
continues with the invariants intact and strictly fewer pending agents. -/
theorem loopStep_cases {V : Type} (oracle : String → Outcome V) (s : EngineState V)
    (hinv : Inv s) (hdisp : DispatchOk s) :
    (∀ sf, loopStep oracle s = .inl sf →
      Inv sf ∧ DispatchOk sf ∧ sf.agents.map Prod.fst = s.agents.map Prod.fst) ∧
    (∀ s', loopStep oracle s = .inr s' →
      Inv s' ∧ DispatchOk s' ∧ s'.agents.map Prod.fst = s.agents.map Prod.fst ∧
      countPending s' < countPending s) := by
  by_cases hb1 : ((readyAgents s).isEmpty &&
      decide (s.completed.length < s.agents.length)) = true
  · by_cases hb2 : (pendingAgentsOf s).all (fun p => hasErroredDep s.agents p.1) = true
    · have hstep : loopStep oracle s = .inl (markBlocked s) := by
        rw [loopStep]
        simp only [hb1, if_pos, hb2]
      obtain ⟨h1, h2, h3⟩ := markBlocked_inv s hinv hdisp
      constructor
      · intro sf hsf
        rw [hstep] at hsf
        cases hsf
        exact ⟨h1, h2, h3⟩
      · intro s' hs'
        rw [hstep] at hs'
        cases hs'
    · by_cases hb3 : (pendingAgentsOf s).isEmpty = true
      · exfalso
        have : pendingAgentsOf s = [] := List.isEmpty_iff.mp hb3
        rw [this] at hb2
        simp [List.all_nil] at hb2
      · have hb2' : (pendingAgentsOf s).all (fun p => hasErroredDep s.agents p.1) = false := by
          simpa using hb2
        have hb3' : (pendingAgentsOf s).isEmpty = false := by
          simpa using hb3
        have hstep : loopStep oracle s = .inl (markStalled s) := by
          rw [loopStep]
          simp only [hb1, if_pos, hb2', Bool.false_eq_true, if_neg, ite_false, hb3',
            Bool.not_false, if_pos]
        obtain ⟨h1, h2, h3⟩ := markStalled_inv s hinv hdisp
        constructor
        · intro sf hsf
          rw [hstep] at hsf
          cases hsf
          exact ⟨h1, h2, h3⟩
        · intro s' hs'
          rw [hstep] at hs'
          cases hs'
  · have hready : ¬ (readyAgents s).isEmpty = true ∨
        ¬ s.completed.length < s.agents.length := by
      by_cases h : (readyAgents s).isEmpty = true
      · right
        intro hlt
        exact hb1 (by simp [h, hlt])
      · left; exact h
    by_cases hb4 : ((readyAgents s).isEmpty &&
        decide (s.completed.length = s.agents.length)) = true
    · have hstep : loopStep oracle s = .inl s := by
        rw [loopStep]
        simp only [hb1, Bool.false_eq_true, if_neg, ite_false, hb4, if_pos]
      constructor
      · intro sf hsf
        rw [hstep] at hsf
        cases hsf
        exact ⟨hinv, hdisp, rfl⟩
      · intro s' hs'
        rw [hstep] at hs'
        cases hs'
    · -- the execution path
      have hreadyne : (readyAgents s).isEmpty = false := by
        by_cases h : (readyAgents s).isEmpty = true
        · exfalso
          have hle := completed_length_le hinv
          rcases hready with h' | h'
          · exact h' h
          · have hne : ¬ s.completed.length = s.agents.length := by
              intro he
              exact hb4 (by simp [h, he])
            omega
        · simpa using h
      obtain ⟨hinvR, hdispR, hfstR, hcountR⟩ := runReady_inv oracle s hinv hdisp
      have hne : readyAgents s ≠ [] := by
        intro he
        rw [he] at hreadyne
        simp at hreadyne
      have hlenR : 1 ≤ (readyAgents s).length := List.length_pos.mpr hne
      have hstep : ∀ r, loopStep oracle s = r →
          r = (if (runReady oracle s).completed.length = (runReady oracle s).agents.length
                then Sum.inl (runReady oracle s) else Sum.inr (runReady oracle s)) := by
        intro r hr
        rw [loopStep] at hr
        simp only [hb1, Bool.false_eq_true, if_neg, ite_false, hb4] at hr
        exact hr.symm
      constructor
      · intro sf hsf
        have := hstep _ hsf
        by_cases hfin : (runReady oracle s).completed.length = (runReady oracle s).agents.length
        · rw [if_pos hfin] at this
          cases this
          exact ⟨hinvR, hdispR, hfstR⟩
        · rw [if_neg hfin] at this
          cases this
      · intro s' hs'
        have := hstep _ hs'
        by_cases hfin : (runReady oracle s).completed.length = (runReady oracle s).agents.length
        · rw [if_pos hfin] at this
          cases this
        · rw [if_neg hfin] at this
          cases this
          exact ⟨hinvR, hdispR, hfstR, by omega⟩

/-- With fuel exceeding the number of pending agents, the engine loop always
reaches a break, and the invariants hold at the final state. -/
theorem loop_some {V : Type} (oracle : String → Outcome V) :
    ∀ (fuel : Nat) (s : EngineState V), Inv s → DispatchOk s → countPending s < fuel →
      ∃ sf, loop oracle fuel s = some sf ∧ Inv sf ∧ DispatchOk sf ∧
        sf.agents.map Prod.fst = s.agents.map Prod.fst := by
  intro fuel
  induction fuel with
  | zero => intro s _ _ h; omega
  | succ n ih =>
    intro s hinv hdisp hcount
    obtain ⟨hinl, hinr⟩ := loopStep_cases oracle s hinv hdisp
    cases hstep : loopStep oracle s with
    | inl sf =>
      obtain ⟨h1, h2, h3⟩ := hinl sf hstep
      exact ⟨sf, by rw [loop, hstep], h1, h2, h3⟩
    | inr s' =>
      obtain ⟨h1, h2, h3, h4⟩ := hinr s' hstep
      obtain ⟨sf, hloop, hf1, hf2, hf3⟩ := ih s' h1 h2 (by omega)
      exact ⟨sf, by rw [loop, hstep]; exact hloop, hf1, hf2, by rw [hf3, h3]⟩

/-- The initial engine state satisfies both invariants. -/
theorem initState_inv (V : Type) (cfgs : List AgentCfg) :
    Inv (initState V cfgs) ∧ DispatchOk (initState V cfgs) := by
  constructor
  · refine ⟨List.nodup_nil, ?_, ?_, ?_, ?_⟩
    · intro id hid
      simp [initState] at hid
    · intro p hp hterm
      rw [show (initState V cfgs).agents = cfgs.map (fun a => (a, AStatus.pending)) from rfl]
        at hp
      obtain ⟨a, _, rfl⟩ := List.mem_map.mp hp
      simp at hterm
    · intro k
      simp [initState, List.lookup]
    · intro pr hpr
      simp [initState] at hpr
  · intro id ctx hev
    rw [show (initState V cfgs).events = cfgs.map (fun a => Event.pendingEv a.agentId)
      from rfl] at hev
    obtain ⟨a, _, hcontra⟩ := List.mem_map.mp hev
    cases hcontra

/-- Initially every agent is pending. -/
theorem countPending_init (V : Type) (cfgs : List AgentCfg) :
    countPending (initState V cfgs) = cfgs.length := by
  rw [countPending,
    show (initState V cfgs).agents = cfgs.map (fun a => (a, AStatus.pending)) from rfl,
    ← List.countP_eq_length_filter, List.countP_map]
  simp [Function.comp]

/-- C1 counterexample: for the single agent s1 depending on the nonexistent
id "ghost", the engine terminates with s1 `stalled`, the returned report map
has no entry for s1, and the overall status is even `completed_successfully` —
so the report map is not complete for every submitted agent set. -/
theorem executeWorkflow_missing_report :
    (executeWorkflow okOracle ghostCfgs).map
        (fun pr => pr.1.agentExecutionReports.lookup ("s1")) = some none ∧
    (executeWorkflow okOracle ghostCfgs).map (fun pr => pr.1.status)
      = some WStatus.completedSuccessfully ∧
    (executeWorkflow okOracle ghostCfgs).map (fun pr => pr.2.agents.map Prod.snd)
      = some [AStatus.stalled] := by
  refine ⟨by decide, by decide, by decide⟩

/-- C1 amended: for every submitted agent set, `executeWorkflow` terminates
and returns a final output whose status is `completed_successfully` or
`completed_with_errors`, and whose report map contains an entry exactly for
the agents that finished `completed` or `error`; agents ending
`blocked_error` or `stalled` have no report entry (stated for duplicate-free
agent ids). -/
theorem executeWorkflow_total (V : Type) (oracle : String → Outcome V)
    (cfgs : List AgentCfg) :
    ∃ out sf, executeWorkflow oracle cfgs = some (out, sf) ∧
      (out.status = WStatus.completedSuccessfully ∨
        out.status = WStatus.completedWithErrors) ∧
      (∀ id : String, (out.agentExecutionReports.lookup id).isSome ↔
        ∃ p ∈ sf.agents, p.1.agentId = id ∧
          (p.2 = AStatus.completed ∨ p.2 = AStatus.error)) ∧
      ((cfgs.map AgentCfg.agentId).Nodup →
        ∀ p ∈ sf.agents, (p.2 = AStatus.blockedError ∨ p.2 = AStatus.stalled) →
          out.agentExecutionReports.lookup p.1.agentId = none) := by
  obtain ⟨hinv0, hdisp0⟩ := initState_inv V cfgs
  obtain ⟨sf, hloop, hinvF, _, hfstF⟩ :=
    loop_some oracle (cfgs.length + 1) (initState V cfgs) hinv0 hdisp0
      (by rw [countPending_init]; omega)
  have hfst0 : (initState V cfgs).agents.map Prod.fst = cfgs := by
    rw [show (initState V cfgs).agents = cfgs.map (fun a => (a, AStatus.pending)) from rfl,
      List.map_map]
    simp [Function.comp_def]
  refine ⟨{ status := overallStatus sf.results, agentExecutionReports := sf.results },
    sf, ?_, ?_, ?_, ?_⟩
  · rw [executeWorkflow, hloop]
    rfl
  · rw [overallStatus]
    by_cases h : (objValues sf.results).any (fun r => r.status == AStatus.error) = true
    · rw [if_pos h]
      exact Or.inr rfl
    · rw [if_neg h]
      exact Or.inl rfl
  · intro id
    show (sf.results.lookup id).isSome ↔
      ∃ p ∈ sf.agents, p.1.agentId = id ∧
        (p.2 = AStatus.completed ∨ p.2 = AStatus.error)
    rw [hinvF.2.2.2.1 id]
    constructor
    · exact fun h => hinvF.2.1 id h
    · rintro ⟨p, hp, hpid, hpterm⟩
      rw [← hpid]
      exact hinvF.2.2.1 p hp hpterm
  · intro hnodup p hp hblocked
    by_contra hlookup
    have hsome : (sf.results.lookup p.1.agentId).isSome :=
      Option.ne_none_iff_isSome.mp hlookup
    have hmem : p.1.agentId ∈ sf.completed := (hinvF.2.2.2.1 _).mp hsome
    obtain ⟨q, hq, hqid, hqterm⟩ := hinvF.2.1 _ hmem
    have hmapids : (sf.agents.map (fun r => r.1.agentId)).Nodup := by
      have : sf.agents.map (fun r => r.1.agentId)
          = (sf.agents.map Prod.fst).map AgentCfg.agentId := by
        rw [List.map_map]
        rfl
      rw [this, hfstF, hfst0]
      exact hnodup
    have hpq : q = p := List.inj_on_of_nodup_map hmapids hq hp hqid
    subst hpq
    rcases hqterm with h | h <;> rcases hblocked with h' | h' <;> rw [h] at h' <;> cases h'

/-- Witness for C1's amended theorem: the ghost-dependency run returns a
final output in which the stalled agent has no report entry. -/
theorem executeWorkflow_total_witness :
    ∃ out sf, executeWorkflow okOracle ghostCfgs = some (out, sf) ∧
      (out.status = WStatus.completedSuccessfully ∨
        out.status = WStatus.completedWithErrors) ∧
      (∀ p ∈ sf.agents, (p.2 = AStatus.blockedError ∨ p.2 = AStatus.stalled) →
        out.agentExecutionReports.lookup p.1.agentId = none) := by
  obtain ⟨out, sf, h1, h2, _, h4⟩ := executeWorkflow_total String okOracle ghostCfgs
  exact ⟨out, sf, h1, h2, h4 (by decide)⟩

/-- C3: whenever the engine dispatches an agent, the recorded context has as
its keys exactly the agent's dependency list, and each dependency id is
mapped to the `result` field of a stored terminal report for that
dependency. -/
theorem executeWorkflow_context (V : Type) (oracle : String → Outcome V)
    (cfgs : List AgentCfg) (out : FinalOutput V) (sf : EngineState V) :
    executeWorkflow oracle cfgs = some (out, sf) →
    ∀ id ctx, Event.dispatched id ctx ∈ sf.events →
      ∃ a : AgentCfg, (∃ st, (a, st) ∈ sf.agents) ∧ a.agentId = id ∧
        ctx.map Prod.fst = a.dependencies ∧
        ∀ pr ∈ ctx, ∃ rep : Report V,
          (pr.1, rep) ∈ sf.results ∧ pr.2 = some rep.result ∧
          (rep.status = AStatus.completed ∨ rep.status = AStatus.error) := by
  intro hw
  obtain ⟨hinv0, hdisp0⟩ := initState_inv V cfgs
  obtain ⟨sf', hloop, _, hdispF, _⟩ :=
    loop_some oracle (cfgs.length + 1) (initState V cfgs) hinv0 hdisp0
      (by rw [countPending_init]; omega)
  rw [executeWorkflow, hloop] at hw
  have hsf : sf' = sf := congrArg Prod.snd (Option.some.inj hw)
  subst hsf
  exact hdispF

/-- Witness for C3: in the chain run, agent s2 is dispatched with context
`{s1: "R-s1"}`, which is exactly s1's stored terminal report result. -/
theorem executeWorkflow_context_witness :
    ∃ a : AgentCfg, (∃ st, (a, st) ∈ chainFinalState.agents) ∧ a.agentId = "s2" ∧
      ([(("s1" : String), some ("R-s1"))]).map Prod.fst = a.dependencies ∧
      ∀ pr ∈ ([(("s1" : String), some ("R-s1"))]), ∃ rep : Report String,
        (pr.1, rep) ∈ chainFinalState.results ∧ pr.2 = some rep.result ∧
        (rep.status = AStatus.completed ∨ rep.status = AStatus.error) := by
  exact executeWorkflow_context String chainOracle chainCfgs chainFinalOut chainFinalState
    (by decide) ("s2") [("s1", some ("R-s1"))] (by decide)

/-- C2 counterexample: in the linear chain with s2 failing, s3 is executed
(the errored s2 is added to `completedAgentIds`, making s3 ready) and ends
`completed`, not `blocked_error`; and when the error-cascade branch does
fire, the blocked agents are not added to the completed set. -/
theorem chain_s3_executes :
    reportStatusOf (executeWorkflow chainOracle chainCfgs) ("s3")
      = some AStatus.completed ∧
    AStatus.completed ≠ AStatus.blockedError ∧
    loopStep (fun _ => Outcome.mk true ()) blockedStateEx
      = .inl (markBlocked blockedStateEx) ∧
    (markBlocked blockedStateEx).agents.map Prod.snd
      = [AStatus.error, AStatus.blockedError] ∧
    ("sB" ∈ (markBlocked blockedStateEx).completed) = False := by
  refine ⟨by decide, by decide, by decide, by decide, by simp [markBlocked, blockedStateEx]⟩

/-- C2 amended: when no agent is ready, not all agents are done, and every
`pendingAgents` member has a dependency whose agent errored, the engine marks
each still-pending non-completed agent `blocked_error`, emits an event for
each, leaves `completedAgentIds` and the report map unchanged, and ends the
loop.  In the chain s1 → s2 → s3 with s2 failing, this branch never fires:
errored s2 enters `completedAgentIds`, s3 executes with s2's error result in
context, and the run ends s1=completed, s2=error, s3=completed with overall
status `completed_with_errors`. -/
theorem errorCascade_branch_and_chain :
    (∀ (V : Type) (oracle : String → Outcome V) (s : EngineState V),
      (readyAgents s).isEmpty = true →
      s.completed.length < s.agents.length →
      (pendingAgentsOf s).all (fun p => hasErroredDep s.agents p.1) = true →
      loopStep oracle s = .inl (markBlocked s) ∧
      (markBlocked s).completed = s.completed ∧
      (markBlocked s).results = s.results ∧
      (∀ p ∈ s.agents, isMarkable s p = true →
        ((p.1, AStatus.blockedError) ∈ (markBlocked s).agents ∧
          Event.blockedEv p.1.agentId ∈ (markBlocked s).events))) ∧
    reportStatusOf (executeWorkflow chainOracle chainCfgs) ("s1")
      = some AStatus.completed ∧
    reportStatusOf (executeWorkflow chainOracle chainCfgs) ("s2")
      = some AStatus.error ∧
    reportStatusOf (executeWorkflow chainOracle chainCfgs) ("s3")
      = some AStatus.completed ∧
    (executeWorkflow chainOracle chainCfgs).map (fun pr => pr.1.status)
      = some WStatus.completedWithErrors := by
  refine ⟨?_, by decide, by decide, by decide, by decide⟩
  intro V oracle s h1 h2 h3
  refine ⟨?_, rfl, rfl, ?_⟩
  · have hb1 : ((readyAgents s).isEmpty &&
        decide (s.completed.length < s.agents.length)) = true := by
      simp [h1, h2]
    rw [loopStep]
    simp only [hb1, if_pos, h3]
  · intro p hp hm
    constructor
    · show (p.1, AStatus.blockedError) ∈ s.agents.map
        (fun q => if isMarkable s q then (q.1, AStatus.blockedError) else q)
      exact List.mem_map.mpr ⟨p, hp, by rw [if_pos hm]⟩
    · show Event.blockedEv p.1.agentId ∈ s.events ++
        (s.agents.filter (isMarkable s)).map (fun q => Event.blockedEv q.1.agentId)
      exact List.mem_append.mpr
        (Or.inr (List.mem_map.mpr ⟨p, List.mem_filter.mpr ⟨hp, hm⟩, rfl⟩))

/-- Witness for C2's amended theorem: the branch fires at the concrete
mid-run state with an errored dependency and one unmeetable dependency. -/
theorem errorCascade_branch_witness :
    loopStep (fun _ => Outcome.mk true ()) blockedStateEx
      = .inl (markBlocked blockedStateEx) ∧
    (markBlocked blockedStateEx).completed = blockedStateEx.completed := by
  have h := errorCascade_branch_and_chain.1 Unit (fun _ => Outcome.mk true ())
    blockedStateEx (by decide) (by decide) (by decide)
  exact ⟨h.1, h.2.1⟩

end Engine

end Orchestrator
